import Mathlib

/-!
Verification of the directory-walk core of bazel-gazelle.

This file gives a shallow embedding of the walk package's configuration
chain (src/walk/config.go), the two generations of the directory loader
(src/unnamed/part_002 and src/unnamed/part_003), the single-flight
directory cache (the walk cache appended to src/language/proto/resolve.go),
and the parallel prefetcher populateCache (src/unnamed/part_003).

Machinery that the walk package calls but whose definition is outside the
given sources is either abstracted as a function parameter (the doublestar
glob matcher, the build-file parser, generated-file extraction) or, where a
claim depends on its behavior, modelled from the specification and marked
as such in its doc comment.

Go's pure path helpers (path.Clean, path.Join, path.Dir) and
strings.TrimSpace are embedded concretely below on lists of characters so
that everything is executable.
-/

namespace GoPath

/-- Embeds splitting a character list at every occurrence of a separator,
used to view a slash-separated Go path as its segments (and to split file
contents into lines). Mirrors the segment structure that Go's path.Clean
iterates over. -/
def splitChar (sep : Char) : List Char → List (List Char)
  | [] => [[]]
  | c :: rest =>
    if c = sep then [] :: splitChar sep rest
    else
      match splitChar sep rest with
      | [] => [[c]]
      | s :: ss => (c :: s) :: ss

/-- Joins segments with a separator character; inverse of `splitChar`. -/
def joinChar (sep : Char) : List (List Char) → List Char
  | [] => []
  | [s] => s
  | s :: rest => s ++ sep :: joinChar sep rest

/-- One step of Go path.Clean's segment processing: empty and "." segments
are dropped, ".." pops the previous segment (except at the root of a rooted
path, where it is dropped, and at the start of an unrooted path, where it is
kept), and any other segment is appended. -/
def cleanPush (rooted : Bool) (out : List (List Char)) (seg : List Char) : List (List Char) :=
  if seg = [] ∨ seg = ['.'] then out
  else if seg = ['.', '.'] then
    match out.getLast? with
    | some last => if last = ['.', '.'] then out ++ [seg] else out.dropLast
    | none => if rooted then [] else [seg]
  else out ++ [seg]

/-- Embeds Go path.Clean on a character list: process the slash-separated
segments with `cleanPush`; an empty unrooted result is ".", a rooted result
keeps its leading slash. -/
def pathCleanL (s : List Char) : List Char :=
  let rooted := s.head? == some '/'
  let out := (splitChar '/' s).foldl (cleanPush rooted) []
  if rooted then '/' :: joinChar '/' out
  else if out = [] then ['.'] else joinChar '/' out

/-- Embeds Go path.Clean (src dependency "path", used at
src/walk/config.go:165 and for path.Join / path.Dir). -/
def pathClean (s : String) : String := ⟨pathCleanL s.data⟩

/-- Embeds Go path.Join for two elements: empty elements are skipped, the
rest are joined with a slash and cleaned; all-empty input yields "". -/
def pathJoin (a b : String) : String :=
  if a = "" then (if b = "" then "" else pathClean b)
  else if b = "" then pathClean a
  else pathClean ⟨a.data ++ '/' :: b.data⟩

/-- Everything up to and including the last slash of a path (empty if the
path has no slash); the "dir" part that Go path.Dir cleans. -/
def dirPartL (l : List Char) : List Char :=
  (l.reverse.dropWhile (fun c => !(c = '/'))).reverse

/-- Embeds Go path.Dir: clean of everything before the last slash; a path
with no slash has directory ".". -/
def pathDir (s : String) : String := pathClean ⟨dirPartL s.data⟩

/-- Whitespace recognized by Go strings.TrimSpace on ASCII input. -/
def isSpaceGo (c : Char) : Bool :=
  c == ' ' || c == '\t' || c == '\n' || c == Char.ofNat 11 || c == Char.ofNat 12 || c == '\r'

/-- Embeds Go strings.TrimSpace on a character list. -/
def trimL (l : List Char) : List Char :=
  ((l.dropWhile isSpaceGo).reverse.dropWhile isSpaceGo).reverse

/-- Embeds Go strings.TrimSpace (ASCII fragment). -/
def trimSpace (s : String) : String := ⟨trimL s.data⟩

/-- A valid path segment at the character level: nonempty, slash-free, and
neither "." nor "..". -/
def validSegL (l : List Char) : Prop :=
  l ≠ [] ∧ '/' ∉ l ∧ l ≠ ['.'] ∧ l ≠ ['.', '.']

end GoPath

namespace rule

/-- Embeds rule.Directive: a key/value directive comment from a build file
(the opaque descriptor interface consumed by src/walk/config.go). -/
structure Directive where
  Key : String
  Value : String
deriving DecidableEq

/-- Embeds the fragment of rule.File that the walk package reads: the
ordered directive list and the package path used in log messages. -/
structure File where
  Directives : List Directive
  Pkg : String
deriving DecidableEq

end rule

namespace walk

open GoPath

/-- Embeds walkConfig (src/walk/config.go:53-58). -/
structure walkConfig where
  updateOnly : Bool
  excludes : List String
  ignore : Bool
  follow : List String
deriving DecidableEq

/-- Embeds matchAnyGlob (src/walk/config.go:246-253). The doublestar
matcher is an external dependency and is passed in as `dsMatch`. -/
def matchAnyGlob (dsMatch : String → String → Bool) (patterns : List String) (p : String) : Bool :=
  patterns.any (fun x => dsMatch x p)

/-- Embeds walkConfig.isExcluded (src/walk/config.go:66-68). -/
def isExcluded (dsMatch : String → String → Bool) (wc : walkConfig) (p : String) : Bool :=
  matchAnyGlob dsMatch wc.excludes p

/-- Embeds walkConfig.shouldFollow (src/walk/config.go:70-72). -/
def shouldFollow (dsMatch : String → String → Bool) (wc : walkConfig) (p : String) : Bool :=
  matchAnyGlob dsMatch wc.follow p

/-- Embeds one iteration of the directive loop in Configurer.Configure
(src/walk/config.go:97-127). `validPat` abstracts checkPathMatchPattern
(src/walk/config.go:241-244): true means the pattern validates. An
unknown generation_mode value calls log.Fatalf, which aborts the run;
that is modelled as the `Except.error` case. -/
def applyDirective (validPat : String → Bool) (rel : String) (wc : walkConfig)
    (d : rule.Directive) : Except String walkConfig :=
  if d.Key = "generation_mode" then
    if trimSpace d.Value = "update_only" then .ok { wc with updateOnly := true }
    else if trimSpace d.Value = "create_and_update" then .ok { wc with updateOnly := false }
    else .error ("unknown generation_mode " ++ d.Value)
  else if d.Key = "exclude" then
    if validPat (pathJoin rel d.Value) then
      .ok { wc with excludes := wc.excludes ++ [pathJoin rel d.Value] }
    else .ok wc
  else if d.Key = "follow" then
    if validPat (pathJoin rel d.Value) then
      .ok { wc with follow := wc.follow ++ [pathJoin rel d.Value] }
    else .ok wc
  else if d.Key = "ignore" then .ok { wc with ignore := true }
  else .ok wc

/-- Embeds Configurer.Configure (src/walk/config.go:90-131): copy the
parent configuration, reset `ignore` to false, then apply the directives
of the build-file descriptor in file order. The Go method reads the parent
from and writes the child to c.Exts; here the configurations are passed
and returned directly. The spec presents this operation as
configureForWalk, the form called by the directory loaders. -/
def Configure (validPat : String → Bool) (wc : walkConfig) (rel : String)
    (f : Option rule.File) : Except String walkConfig :=
  let wcCopy := { wc with ignore := false }
  match f with
  | none => .ok wcCopy
  | some f => f.Directives.foldlM (applyDirective validPat rel) wcCopy

/-- Predicate type returned by the ignore-set loaders
(src/walk/config.go:133). -/
abbrev isIgnoredFunc := String → Bool

/-- Embeds nothingIgnored (src/walk/config.go:135). -/
def nothingIgnored : isIgnoredFunc := fun _ => false

/-- True when the string contains a doublestar glob metacharacter, the
test at src/walk/config.go:158. -/
def containsGlobChar (s : String) : Bool :=
  s.data.any (fun c => c == '*' || c == '?' || c == '[')

/-- First-byte comment test at src/walk/config.go:153. -/
def startsWithHash (s : String) : Bool := s.data.head? = some '#'

/-- Result of attempting to read a file: `none` when the file does not
exist, `some (Except.error e)` when it exists but cannot be read, and
`some (Except.ok content)` for a successful read. This abstracts the
os.Open / os.ReadFile outcomes. -/
abbrev fileRead := Option (Except String String)

/-- Embeds the per-line treatment inside loadBazelIgnore's scanner loop
(src/walk/config.go:151-168): trim the line; skip blank lines, comment
lines, and lines containing glob metacharacters; clean the rest. -/
def processBazelIgnoreLine (line : String) : Option String :=
  let ignore := trimSpace line
  if ignore = "" then none
  else if startsWithHash ignore then none
  else if containsGlobChar ignore then none
  else some (pathClean ignore)

/-- Stored entry set derived from the flat-ignore file content: the file
split into lines, each processed by `processBazelIgnoreLine`. -/
def bazelIgnoreEntries (content : String) : List String :=
  (splitChar '\n' content.data).filterMap (fun l => processBazelIgnoreLine ⟨l⟩)

/-- Embeds loadBazelIgnore (src/walk/config.go:137-176): a missing file is
not an error and ignores nothing; an unreadable file is an error; otherwise
the predicate is exact membership in the set of cleaned entries. -/
def loadBazelIgnore (file : fileRead) : isIgnoredFunc × Option String :=
  match file with
  | none => (nothingIgnored, none)
  | some (.error e) => (nothingIgnored, some (".bazelignore exists but cannot be read: " ++ e))
  | some (.ok content) =>
    let excludes := bazelIgnoreEntries content
    (fun p => excludes.contains p, none)

/-- Embeds the buildtools AST fragment inspected by loadRepoDirectoryIgnore:
list items that are string expressions or something else. -/
inductive BzlItem
  | str (s : String)
  | other
deriving DecidableEq

/-- A call argument: a list expression or something else. -/
inductive BzlArg
  | list (items : List BzlItem)
  | other
deriving DecidableEq

/-- A call expression whose function is a plain identifier. -/
structure BzlCall where
  name : String
  args : List BzlArg
deriving DecidableEq

/-- A top-level REPO.bazel statement. -/
inductive BzlStmt
  | call (c : BzlCall)
  | other
deriving DecidableEq

/-- Result of reading and parsing REPO.bazel: outer `none` means the file
is absent, `some (Except.error e)` that it exists but cannot be read, the
inner `Except.error` that bzl.Parse failed, and the inner `Except.ok` the
parsed statement list. -/
abbrev repoFileRead := Option (Except String (Except String (List BzlStmt)))

/-- The search loop at src/walk/config.go:196-222: the first statement that
is a call of the identifier ignore_directories, if any. -/
def findIgnoreDirectoriesCall : List BzlStmt → Option BzlCall
  | [] => none
  | .call c :: rest =>
    if c.name = "ignore_directories" then some c else findIgnoreDirectoriesCall rest
  | .other :: rest => findIgnoreDirectoriesCall rest

/-- Embeds loadRepoDirectoryIgnore (src/walk/config.go:178-239): a missing
file ignores nothing without error; an unreadable or unparsable file is an
error; otherwise the first ignore_directories call is located, its single
list argument is collected (invalid glob patterns logged and dropped), and
the predicate matches any collected pattern with the doublestar matcher. -/
def loadRepoDirectoryIgnore (validPat : String → Bool) (dsMatch : String → String → Bool)
    (file : repoFileRead) : isIgnoredFunc × Option String :=
  match file with
  | none => (nothingIgnored, none)
  | some (.error e) => (nothingIgnored, some ("REPO.bazel exists but cannot be read: " ++ e))
  | some (.ok (.error e)) => (nothingIgnored, some ("failed to parse REPO.bazel: " ++ e))
  | some (.ok (.ok stmts)) =>
    match findIgnoreDirectoriesCall stmts with
    | none => (nothingIgnored, none)
    | some c =>
      match c.args with
      | [BzlArg.list items] =>
        let ignoreDirectories := items.filterMap (fun i =>
          match i with
          | .str s => if validPat s then some s else none
          | .other => none)
        if ignoreDirectories = [] then (nothingIgnored, none)
        else (fun p => matchAnyGlob dsMatch ignoreDirectories p, none)
      | [_] => (nothingIgnored, some "REPO.bazel ignore_directories() unexpected argument type")
      | _ => (nothingIgnored, some "REPO.bazel ignore_directories() expects one argument")

/-- A storage directory entry as seen through os.ReadDir: a name, whether
it is a directory, and whether it is a symbolic link. -/
structure FsEntry where
  name : String
  isDir : Bool
  isSymlink : Bool
deriving DecidableEq

/-- Embeds DirInfo (src/unnamed/part_002:14-30), the newer directory
snapshot including generated files. -/
structure DirInfo where
  Subdirs : List String
  RegularFiles : List String
  GenFiles : List String
  File : Option rule.File
  config : walkConfig
deriving DecidableEq

/-- Embeds dirInfo (src/unnamed/part_003:14-28), the older directory
snapshot without generated files. -/
structure dirInfo where
  subdirs : List String
  regularFiles : List String
  file : Option rule.File
  config : walkConfig
deriving DecidableEq

/-- The walker state read by the directory loaders. Storage access
(os.ReadDir keyed by repo-relative path), build-file loading
(loadBuildFile: descriptor-or-absent plus optional error), generated-file
extraction (findGenFiles), symlink-target kinds, the doublestar matcher,
glob validation, and the merged global ignore predicate are collaborators
outside the given sources and are abstracted as function-valued fields. -/
structure walker where
  readDir : String → Except String (List FsEntry)
  loadBuildFile : walkConfig → String → List FsEntry → Option rule.File × Option String
  findGenFiles : walkConfig → Option rule.File → List String
  symlinkIsDir : String → Bool
  dsMatch : String → String → Bool
  validPat : String → Bool
  ignored : String → Bool
  rootConfig : walkConfig

/-- Modelled from the spec: walkConfig.isExcludedDir, whose definition is
not among the given sources (only its callers in src/unnamed/part_002 and
part_003 are). Spec 4.3: true if the path matches any pattern in excludes,
OR'd with the global ignore-set predicate. -/
def isExcludedDir (w : walker) (wc : walkConfig) (rel : String) : Bool :=
  w.ignored rel || matchAnyGlob w.dsMatch wc.excludes rel

/-- Modelled from the spec: walkConfig.isExcludedFile, whose definition is
not among the given sources; same shape as isExcludedDir per spec 4.3. -/
def isExcludedFile (w : walker) (wc : walkConfig) (rel : String) : Bool :=
  w.ignored rel || matchAnyGlob w.dsMatch wc.excludes rel

/-- Modelled from the spec: maybeResolveSymlink, whose definition is not
among the given sources. Spec 4.5: a symlinked entry is treated as a real
directory only if its path matches a follow pattern and the link target is
a directory; otherwise it is an opaque file-like entry. Non-symlink entries
pass through unchanged, and names are never altered. -/
def maybeResolveSymlink (w : walker) (wc : walkConfig) (entryRel : String) (e : FsEntry) : FsEntry :=
  if e.isSymlink then
    { e with isDir := shouldFollow w.dsMatch wc entryRel && w.symlinkIsDir entryRel }
  else e

/-- Entries visible to loadDirInfo after the os.ReadDir error check: a
read error degrades to an empty entry list (src/unnamed/part_002:49-52). -/
def entriesOf (w : walker) (rel : String) : List FsEntry :=
  match w.readDir rel with
  | .ok es => es
  | .error _ => []

/-- The error contributed by os.ReadDir, as a list joined by errors.Join
(empty list is Go's nil error). -/
def readDirErrs (w : walker) (rel : String) : List String :=
  match w.readDir rel with
  | .ok _ => []
  | .error e => [e]

/-- One iteration of the entry-classification loop, textually identical in
the two loader versions (src/unnamed/part_002:77-85 and part_003:75-83):
resolve the symlink, then append the entry name to the subdirectory list
for a non-excluded directory or to the regular-file list for a
non-excluded non-directory. -/
def classifyStep (w : walker) (config : walkConfig) (rel : String)
    (acc : List String × List String) (e : FsEntry) : List String × List String :=
  let entryRel := GoPath.pathJoin rel e.name
  let e := maybeResolveSymlink w config entryRel e
  if e.isDir && !isExcludedDir w config entryRel then (acc.1 ++ [e.name], acc.2)
  else if !e.isDir && !isExcludedFile w config entryRel then (acc.1, acc.2 ++ [e.name])
  else acc

/-- The entry-classification loop of both loader versions, in entry
order. -/
def classifyEntries (w : walker) (config : walkConfig) (rel : String)
    (entries : List FsEntry) : List String × List String :=
  entries.foldl (classifyStep w config rel) ([], [])

/-- Embeds walker.loadDirInfo (src/unnamed/part_002:44-97), the newer
loader. The parent configuration, which the Go code fetches from the
already-resolved parent cache slot (or from the root config when rel is
""), is passed as an argument; the cache-integrated form used by the
prefetcher model performs that lookup explicitly. A fatal configuration
error (unknown generation_mode, log.Fatalf) aborts the run and is the
`Except.error` case. The error list models errors.Join (empty = nil). The
slice-capacity capping at part_002:89-94 has no observable counterpart on
Lean lists. -/
def loadDirInfo (w : walker) (parentConfig : walkConfig) (rel : String) :
    Except String (DirInfo × List String) :=
  let entries0 := entriesOf w rel
  let bf := w.loadBuildFile parentConfig rel entries0
  let errs := readDirErrs w rel ++ (match bf.2 with | some e => [e] | none => [])
  match Configure w.validPat parentConfig rel bf.1 with
  | .error e => .error e
  | .ok config =>
    let entries := if isExcludedDir w config rel then [] else entries0
    let cls := classifyEntries w config rel entries
    .ok ({ Subdirs := cls.1, RegularFiles := cls.2,
           GenFiles := w.findGenFiles config bf.1,
           File := bf.1, config := config }, errs)

/-- Embeds walker.loadDirInfo (src/unnamed/part_003:42-86), the older
loader, with the parent configuration passed directly as for
`loadDirInfo`. -/
def loadDirInfoOld (w : walker) (parentConfig : walkConfig) (rel : String) :
    Except String (dirInfo × List String) :=
  let entries0 := entriesOf w rel
  let bf := w.loadBuildFile parentConfig rel entries0
  let errs := readDirErrs w rel ++ (match bf.2 with | some e => [e] | none => [])
  match Configure w.validPat parentConfig rel bf.1 with
  | .error e => .error e
  | .ok config =>
    let entries := if isExcludedDir w config rel then [] else entries0
    let cls := classifyEntries w config rel entries
    .ok ({ subdirs := cls.1, regularFiles := cls.2,
           file := bf.1, config := config }, errs)

/-- A cache state: the resolved slots in insertion order, keyed by
repo-relative path. A slot value is the loader result (snapshot plus the
joined error list; empty list is Go's nil error). -/
abbrev CacheState := List (String × (dirInfo × List String))

/-- Slot lookup by key. -/
def cacheFind : CacheState → String → Option (dirInfo × List String)
  | [], _ => none
  | kv :: rest, key => if kv.1 = key then some kv.2 else cacheFind rest key

/-- Embeds cache.get (the walk cache appended to
src/language/proto/resolve.go, lines 230-254) with the concurrent
interleavings sequentialized: a hit returns the resolved slot unchanged; a
miss runs the loader and publishes the result. The third component records
whether the loader was invoked. -/
def cacheGet (c : CacheState) (key : String)
    (load : String → dirInfo × List String) :
    (dirInfo × List String) × CacheState × Bool :=
  match cacheFind c key with
  | some r => (r, c, false)
  | none =>
    let r := load key
    (r, c ++ [(key, r)], true)

/-- Embeds cache.getLoaded (resolve.go:258-272): the result of a previous
get; `none` is the panic case. -/
def getLoaded (c : CacheState) (rel : String) : Option (dirInfo × List String) :=
  cacheFind c rel

/-- Runs a sequence of get operations against the cache, returning the
final cache state. -/
def runCacheOps (c : CacheState)
    (ops : List (String × (String → dirInfo × List String))) : CacheState :=
  ops.foldl (fun c op => (cacheGet c op.1 op.2).2.1) c

/-- Events of the concurrent single-flight protocol of cache.get
(resolve.go:230-254): `install tid k` means thread tid wins the
entryMap.LoadOrStore race and installs the pending slot for k (lines
242-248, loaded = false); `invoke tid k` means tid calls load(k) (line
252); `publish tid k r` means tid stores the result into the slot and
closes doneC (lines 251-252); `ret tid k r` means a get(k) call by tid
returns r (lines 236-237, 246-247, or 253). -/
inductive CEvent
  | install (tid : Nat) (key : String)
  | invoke (tid : Nat) (key : String)
  | publish (tid : Nat) (key : String) (r : dirInfo × List String)
  | ret (tid : Nat) (key : String) (r : dirInfo × List String)
deriving DecidableEq

/-- Recognizes an install event for a given key. -/
def isInstallFor : CEvent → String → Bool
  | .install _ k, key => k == key
  | _, _ => false

/-- Recognizes an invoke event for a given key. -/
def isInvokeFor : CEvent → String → Bool
  | .invoke _ k, key => k == key
  | _, _ => false

/-- Recognizes a publish event by a given thread for a given key. -/
def isPublishOf : CEvent → Nat → String → Bool
  | .publish t k _, tid, key => t == tid && k == key
  | _, _, _ => false

/-- Recognizes a publish event for a given key carrying a given result. -/
def isPublishKR : CEvent → String → (dirInfo × List String) → Bool
  | .publish _ k r, key, res => k == key && r == res
  | _, _, _ => false

/-- Whether an event may occur after the trace `past`, following the
program structure of cache.get and the atomicity of sync.Map.LoadOrStore:
a slot is installed at most once per key (LoadOrStore stores only when the
key is absent and entries are never removed); only the thread that
installed a key's slot invokes the loader for it, and a thread that has
already invoked for a key never invokes for it again (the winner branch of
get runs load exactly once, and a repeat get by the same thread hits the
existing slot); only a thread that invoked publishes, at most once; and a
get call returns a value for a key only after that value was published for
the key (every return path waits on doneC and then reads the slot
fields). -/
def okEvent (past : List CEvent) : CEvent → Bool
  | .install _ k => !(past.any (fun e => isInstallFor e k))
  | .invoke tid k =>
    past.contains (CEvent.install tid k) && !(past.contains (CEvent.invoke tid k))
  | .publish tid k _ =>
    past.contains (CEvent.invoke tid k) && !(past.any (fun e => isPublishOf e tid k))
  | .ret _ k r => past.any (fun e => isPublishKR e k r)

/-- Trace validity: every event is permitted by `okEvent` after the events
before it. -/
def wfTraceAux : List CEvent → List CEvent → Bool
  | _, [] => true
  | past, e :: rest => okEvent past e && wfTraceAux (past ++ [e]) rest

/-- A well-formed trace of the single-flight cache protocol. -/
def wfTrace (t : List CEvent) : Bool := wfTraceAux [] t

/-- Abort conditions of a cache load in the prefetcher model: a fatal
configuration error from an unknown generation_mode (log.Fatalf), or the
getLoaded panic when the parent slot is not resolved (resolve.go:268). -/
inductive LoadAbort
  | fatalConfig (msg : String)
  | parentNotLoaded (rel : String)
deriving DecidableEq

/-- Embeds the parent-relative-path computation of walker.loadDirInfo
(src/unnamed/part_003:56-60): path.Dir, with "." replaced by "". -/
def parentRelOf (rel : String) : String :=
  let p := GoPath.pathDir rel
  if p = "." then "" else p

/-- Embeds walker.loadDirInfo (src/unnamed/part_003:42-86) including its
parent lookup through the cache: the parent configuration comes from the
root configuration when rel is "", otherwise from getLoaded on the parent
slot; a missing or unresolved parent slot is the getLoaded panic. -/
def loadDirInfoC (w : walker) (c : CacheState) (rel : String) :
    Except LoadAbort (dirInfo × List String) :=
  let pc : Except LoadAbort walkConfig :=
    if rel = "" then .ok w.rootConfig
    else
      match getLoaded c (parentRelOf rel) with
      | some pr => .ok pr.1.config
      | none => .error (.parentNotLoaded rel)
  match pc with
  | .error a => .error a
  | .ok parentConfig =>
    match loadDirInfoOld w parentConfig rel with
    | .ok r => .ok r
    | .error e => .error (.fatalConfig e)

/-- cache.get applied to the tree loader, threading aborts. -/
def cacheGetC (w : walker) (c : CacheState) (rel : String) :
    Except LoadAbort ((dirInfo × List String) × CacheState) :=
  match cacheFind c rel with
  | some r => .ok (r, c)
  | none =>
    match loadDirInfoC w c rel with
    | .ok r => .ok (r, c ++ [(rel, r)])
    | .error a => .error a

mutual

/-- Sequentialized embedding of the recursive visit closure of
populateCache (src/unnamed/part_003:105-126): get the directory from the
cache (loading it on a miss), stop on a load error, otherwise recurse into
each non-excluded subdirectory. `fuel` bounds the recursion depth; the
claims hold for every fuel. -/
def seqVisit (w : walker) : Nat → CacheState → String → Except LoadAbort CacheState
  | 0, c, _ => .ok c
  | Nat.succ fuel, c, rel =>
    match cacheGetC w c rel with
    | .error a => .error a
    | .ok (r, c') =>
      if r.2.isEmpty then seqVisitChildren w fuel c' rel r.1.config r.1.subdirs
      else .ok c'
termination_by n _ _ => (n, 0)

/-- The subdirectory loop of the visit closure (part_003:114-125). -/
def seqVisitChildren (w : walker) : Nat → CacheState → String → walkConfig → List String →
    Except LoadAbort CacheState
  | _, c, _, _, [] => .ok c
  | fuel, c, rel, wc, s :: ss =>
    let subdirRel := GoPath.pathJoin rel s
    if isExcludedDir w wc subdirRel then seqVisitChildren w fuel c rel wc ss
    else
      match seqVisit w fuel c subdirRel with
      | .error a => .error a
      | .ok c' => seqVisitChildren w fuel c' rel wc ss
termination_by n _ _ _ ss => (n, ss.length + 1)

end

/-- Embeds the prefix-scanning loop of populateCache
(src/unnamed/part_003:131-141): strings.Index locates each slash in turn
and the text before it is loaded; scanning character by character, the
accumulated text before each slash is emitted, in left-to-right order. -/
def ancestorsAux (before : List Char) : List Char → List String
  | [] => []
  | c :: rest =>
    if c = '/' then String.mk before :: ancestorsAux (before ++ ['/']) rest
    else ancestorsAux (before ++ [c]) rest

/-- The proper ancestor prefixes of a requested root, in the order the
prefix loop of populateCache loads them. -/
def ancestors (dir : String) : List String := ancestorsAux [] dir.data

/-- cache.get with the result discarded, as in the prefix phase of
populateCache (part_003:130 and 140). -/
def cacheGetDrop (w : walker) (c : CacheState) (rel : String) :
    Except LoadAbort CacheState :=
  match cacheGetC w c rel with
  | .ok rc => .ok rc.2
  | .error a => .error a

/-- Embeds populateCache (src/unnamed/part_003:93-155), sequentialized:
load the repo root, then every proper ancestor prefix of each requested
root in scan order, then visit each requested root recursively. The
bounded-concurrency scheduling (semaphore of six, WaitGroup) affects only
interleaving, not which loads occur nor the phase order; `fuel` bounds the
visit recursion and the claims hold for every fuel. -/
def populateCacheModel (w : walker) (fuel : Nat) (rels : List String) :
    Except LoadAbort CacheState :=
  match cacheGetDrop w [] "" with
  | .error a => .error a
  | .ok c =>
    match rels.foldlM (fun c dir => (ancestors dir).foldlM (fun c p => cacheGetDrop w c p) c) c with
    | .error a => .error a
    | .ok c => rels.foldlM (fun c dir => seqVisit w fuel c dir) c

/-- A valid path segment: nonempty, slash-free, and neither "." nor "..";
the shape of entry names returned by os.ReadDir. -/
def validSeg (s : String) : Bool :=
  !(s.data = []) && !(s.data.contains '/') && !(s.data = ['.']) && !(s.data = ['.', '.'])

/-- A clean, nonempty, unrooted relative path, the form of the walker's
cache keys below the root: every slash-separated segment is valid. -/
def cleanRel (s : String) : Bool :=
  !(s.data = []) && (GoPath.splitChar '/' s.data).all (fun seg => validSeg (String.mk seg))

/-- The exclude patterns a directive list contributes under Configure, in
file order: each exclude directive whose value joined with the directory's
path validates. -/
def newExcludes (validPat : String → Bool) (rel : String) (ds : List rule.Directive) :
    List String :=
  ds.filterMap (fun d =>
    if d.Key = "exclude" then
      if validPat (GoPath.pathJoin rel d.Value) then some (GoPath.pathJoin rel d.Value) else none
    else none)

/-- The follow patterns a directive list contributes under Configure, in
file order. -/
def newFollow (validPat : String → Bool) (rel : String) (ds : List rule.Directive) :
    List String :=
  ds.filterMap (fun d =>
    if d.Key = "follow" then
      if validPat (GoPath.pathJoin rel d.Value) then some (GoPath.pathJoin rel d.Value) else none
    else none)

/-- The updateOnly value a single generation_mode directive requests, if
its value is one of the two recognized generation modes. -/
def genModeOf (d : rule.Directive) : Option Bool :=
  if d.Key = "generation_mode" then
    if GoPath.trimSpace d.Value = "update_only" then some true
    else if GoPath.trimSpace d.Value = "create_and_update" then some false
    else none
  else none

/-- The last recognized generation_mode request of a directive list, if
any: generation_mode overrides rather than accumulates. -/
def lastGenMode (ds : List rule.Directive) : Option Bool :=
  ds.foldl (fun acc d => match genModeOf d with | some b => some b | none => acc) none

/-- Whether any directive of the list is an ignore directive. -/
def hasIgnoreDirective (ds : List rule.Directive) : Bool :=
  ds.any (fun d => d.Key == "ignore")

/-- The walker with a build-file loader that always reports a cleanly
absent build file; used to express that a parse error degrades to
absent-descriptor semantics with the directory contents intact. -/
def cleanBuildFileW (w : walker) : walker :=
  { w with loadBuildFile := fun _ _ _ => (none, none) }

/-- The proper ancestor sequence of a segment list, shortest first,
stated from the claim's words for comparison with the scan loop of
populateCache: for segments s1 .. sn these are s1, s1/s2, ...,
s1/../s(n-1). -/
def ancestorsSegs : List (List Char) → List (List Char)
  | [] => []
  | [_] => []
  | s :: rest => s :: (ancestorsSegs rest).map (fun t => s ++ '/' :: t)

/-- The proper ancestor prefixes of a requested root path, in
ancestor-before-descendant order, stated from the claim's words. -/
def ancestorsSpec (dir : String) : List String :=
  (ancestorsSegs (GoPath.splitChar '/' dir.data)).map String.mk

/-- A parent-linked chain of cache keys: each element is a clean relative
path whose parent relative path is the preceding element (the first
element's parent is p0). -/
def parentChain (p0 : String) : List String → Prop
  | [] => True
  | a :: rest => cleanRel a = true ∧ parentRelOf a = p0 ∧ parentChain a rest

/-- The invariant the prefetcher maintains on the cache: keys are the root
or clean relative paths, every non-root key's parent key is present, and
every cached subdirectory name is a valid segment. -/
def CacheInv (c : CacheState) : Prop :=
  (∀ kv ∈ c, kv.1 = "" ∨ cleanRel kv.1 = true) ∧
  (∀ kv ∈ c, kv.1 ≠ "" → cacheFind c (parentRelOf kv.1) ≠ none) ∧
  (∀ kv ∈ c, ∀ s ∈ kv.2.1.subdirs, validSeg s = true)

/-- All entry names a walker can ever report are valid segments: the shape
guaranteed by os.ReadDir, stated as a hypothesis on the abstract storage. -/
def walkerNamesOk (w : walker) : Prop :=
  ∀ rel, ∀ e ∈ entriesOf w rel, validSeg e.name = true

/-- The invariant components of a single-flight cache trace used to settle
the concurrency claim: installs, invokes, and publishes for a key are
unique, each stage presupposes the previous one by the same thread, and
every returned value was published for its key. -/
def TraceInv (past : List CEvent) : Prop :=
  (∀ k t t', CEvent.install t k ∈ past → CEvent.install t' k ∈ past → t = t') ∧
  (∀ k t, CEvent.invoke t k ∈ past → CEvent.install t k ∈ past) ∧
  (∀ k t r, CEvent.publish t k r ∈ past → CEvent.invoke t k ∈ past) ∧
  (∀ k t r, CEvent.ret t k r ∈ past → ∃ t', CEvent.publish t' k r ∈ past) ∧
  (∀ k t t' r r', CEvent.publish t k r ∈ past → CEvent.publish t' k r' ∈ past →
    t = t' ∧ r = r') ∧
  (∀ k t t', CEvent.invoke t k ∈ past → CEvent.invoke t' k ∈ past → t = t') ∧
  (∀ k, (past.filter (fun e => isInvokeFor e k)).length ≤ 1)

/-- The all-false walk configuration used by the concrete witnesses. -/
def wcEmpty : walkConfig :=
  { updateOnly := false, excludes := [], ignore := false, follow := [] }

/-- A pattern validator for the witnesses: a pattern validates unless it
contains a brace character (standing for the doublestar syntax check). -/
def demoVP : String → Bool := fun s => !(s.data.contains '[')

/-- A glob matcher for the witnesses: literal equality. -/
def demoMatch : String → String → Bool := fun pat p => pat = p

/-- A small concrete walker over a three-level tree with one unreadable
directory ("bad"), one directory whose build file fails to parse ("pbad"),
and one globally ignored directory ("ex"); used by the witnesses. -/
def demoWalker : walker :=
  { readDir := fun rel =>
      if rel = "bad" then .error "read failure"
      else if rel = "" then
        .ok [⟨"a", true, false⟩, ⟨"bad", true, false⟩, ⟨"ex", true, false⟩,
             ⟨"pbad", true, false⟩, ⟨"f.go", false, false⟩]
      else if rel = "a" then .ok [⟨"b", true, false⟩]
      else if rel = "ex" then .ok [⟨"c", true, false⟩]
      else .ok []
    loadBuildFile := fun _ rel _ =>
      if rel = "pbad" then (none, some "build file syntax error") else (none, none)
    findGenFiles := fun _ _ => []
    symlinkIsDir := fun _ => false
    dsMatch := demoMatch
    validPat := demoVP
    ignored := fun p => p = "ex"
    rootConfig := wcEmpty }

/-- A sample directory snapshot for the cache witnesses. -/
def demoInfo : dirInfo :=
  { subdirs := ["a"], regularFiles := ["f.go"], file := none, config := wcEmpty }

/-- A sample build file for the configuration witnesses: one valid exclude,
a generation_mode switch with surrounding whitespace, one valid follow, an
ignore, and an exclude whose pattern fails validation. -/
def demoFile : rule.File :=
  ⟨[⟨"exclude", "x"⟩, ⟨"generation_mode", " create_and_update "⟩,
    ⟨"follow", "y"⟩, ⟨"ignore", ""⟩, ⟨"exclude", "[bad"⟩], "sub"⟩

/-- A sample parent configuration for the configuration witnesses. -/
def demoParentWC : walkConfig := ⟨true, ["ex0"], true, ["f0"]⟩

/-- The child configuration Configure derives from `demoParentWC` and
`demoFile` in directory "sub". -/
def demoChildWC : walkConfig := ⟨false, ["ex0", "sub/x"], true, ["f0", "sub/y"]⟩

/-- A loader for the cache witnesses. -/
def demoLoad : String → dirInfo × List String := fun _ => (demoInfo, [])

/-- A second loader, returning a different result, for exercising that a
later get never invokes its loader. -/
def demoLoad2 : String → dirInfo × List String := fun _ => (demoInfo, ["other"])

/-- A small well-formed trace of the single-flight protocol: one thread
wins the install race, runs the loader, publishes, and two threads return
the published value. -/
def demoTrace : List CEvent :=
  [.install 0 "a", .invoke 0 "a", .publish 0 "a" (demoInfo, []),
   .ret 0 "a" (demoInfo, []), .ret 1 "a" (demoInfo, [])]

end walk

namespace GoPath

example : pathClean "" = "." := by decide
example : pathClean "./b.file" = "b.file" := by decide
example : pathClean "././blah/../ugly/c.file" = "ugly/c.file" := by decide
example : pathClean "dir3/" = "dir3" := by decide
example : pathClean "a/.." = "." := by decide
example : pathClean "../a" = "../a" := by decide
example : pathClean "/../a" = "/a" := by decide
example : pathClean "//a" = "/a" := by decide
example : pathJoin "" "x" = "x" := by decide
example : pathJoin "sub" "*.gen.go" = "sub/*.gen.go" := by decide
example : pathJoin "sub" "." = "sub" := by decide
example : pathDir "a/b" = "a" := by decide
example : pathDir "a" = "." := by decide
example : pathDir "" = "." := by decide
example : trimSpace "  a b \t" = "a b" := by decide

end GoPath

namespace walk

open GoPath

theorem genMode_foldl (ds : List rule.Directive) :
    ∀ (init : Option Bool),
      ds.foldl (fun acc d => match genModeOf d with | some b => some b | none => acc) init
        = match lastGenMode ds with | some b => some b | none => init := by
  induction ds with
  | nil => intro init; simp [lastGenMode]
  | cons d ds ih =>
    intro init
    rw [List.foldl_cons]
    rw [ih]
    have hr : lastGenMode (d :: ds)
        = ds.foldl (fun acc d => match genModeOf d with | some b => some b | none => acc)
            (match genModeOf d with | some b => some b | none => none) := by
      simp [lastGenMode]
    rw [hr, ih]
    cases lastGenMode ds <;> cases genModeOf d <;> simp

theorem lastGenMode_cons (d : rule.Directive) (ds : List rule.Directive) :
    lastGenMode (d :: ds)
      = match lastGenMode ds with | some b => some b | none => genModeOf d := by
  have hr : lastGenMode (d :: ds)
      = ds.foldl (fun acc d => match genModeOf d with | some b => some b | none => acc)
          (match genModeOf d with | some b => some b | none => none) := by
    simp [lastGenMode]
  rw [hr, genMode_foldl]
  cases lastGenMode ds <;> cases genModeOf d <;> simp

theorem configure_foldl_spec (validPat : String → Bool) (rel : String) :
    ∀ (ds : List rule.Directive) (acc wc' : walkConfig),
      ds.foldlM (applyDirective validPat rel) acc = .ok wc' →
      wc'.excludes = acc.excludes ++ newExcludes validPat rel ds ∧
      wc'.follow = acc.follow ++ newFollow validPat rel ds ∧
      wc'.ignore = (acc.ignore || hasIgnoreDirective ds) ∧
      wc'.updateOnly = ((lastGenMode ds).getD acc.updateOnly) := by
  intro ds
  induction ds with
  | nil =>
    intro acc wc' h
    simp only [List.foldlM_nil, pure, Except.pure, Except.ok.injEq] at h
    subst h
    simp [newExcludes, newFollow, hasIgnoreDirective, lastGenMode]
  | cons d ds ih =>
    intro acc wc' h
    rw [List.foldlM_cons] at h
    cases hd : applyDirective validPat rel acc d with
    | error e =>
      rw [hd] at h
      simp [Bind.bind, Except.bind] at h
    | ok acc' =>
      rw [hd] at h
      simp only [Bind.bind, Except.bind] at h
      obtain ⟨h1, h2, h3, h4⟩ := ih acc' wc' h
      unfold applyDirective at hd
      have ne1 : ("create_and_update" : String) ≠ "update_only" := by decide
      have ne2 : ("exclude" : String) ≠ "generation_mode" := by decide
      have ne3 : ("follow" : String) ≠ "generation_mode" := by decide
      have ne4 : ("follow" : String) ≠ "exclude" := by decide
      have ne5 : ("ignore" : String) ≠ "generation_mode" := by decide
      have ne6 : ("ignore" : String) ≠ "exclude" := by decide
      have ne7 : ("ignore" : String) ≠ "follow" := by decide
      by_cases hk1 : d.Key = "generation_mode"
      · by_cases hv1 : trimSpace d.Value = "update_only"
        · simp only [hk1, hv1, if_true, if_pos rfl, Except.ok.injEq] at hd
          subst hd
          refine ⟨?_, ?_, ?_, ?_⟩
          · simpa [newExcludes, List.filterMap_cons, hk1] using h1
          · simpa [newFollow, List.filterMap_cons, hk1] using h2
          · simpa [hasIgnoreDirective, hk1] using h3
          · rw [h4, lastGenMode_cons]
            have hg : genModeOf d = some true := by simp [genModeOf, hk1, hv1]
            cases hlg : lastGenMode ds <;> simp [hlg, hg]
        · by_cases hv2 : trimSpace d.Value = "create_and_update"
          · simp only [hk1, hv1, hv2, ne1, if_true, if_false, if_pos rfl, Except.ok.injEq] at hd
            subst hd
            refine ⟨?_, ?_, ?_, ?_⟩
            · simpa [newExcludes, List.filterMap_cons, hk1] using h1
            · simpa [newFollow, List.filterMap_cons, hk1] using h2
            · simpa [hasIgnoreDirective, hk1] using h3
            · rw [h4, lastGenMode_cons]
              have hg : genModeOf d = some false := by simp [genModeOf, hk1, hv1, hv2]
              cases hlg : lastGenMode ds <;> simp [hlg, hg]
          · simp [hk1, hv1, hv2] at hd
      · by_cases hk2 : d.Key = "exclude"
        · by_cases hp : validPat (pathJoin rel d.Value)
          · simp only [hk1, hk2, hp, ne2, if_true, if_false, if_pos rfl, Except.ok.injEq] at hd
            subst hd
            refine ⟨?_, ?_, ?_, ?_⟩
            · rw [h1]
              simp [newExcludes, List.filterMap_cons, hk1, hk2, hp]
            · simpa [newFollow, List.filterMap_cons, hk1, hk2] using h2
            · simpa [hasIgnoreDirective, hk2] using h3
            · rw [h4, lastGenMode_cons]
              have hg : genModeOf d = none := by simp [genModeOf, hk2]
              cases hlg : lastGenMode ds <;> simp [hlg, hg]
          · simp [hk1, hk2, hp, ne2] at hd
            subst hd
            refine ⟨?_, ?_, ?_, ?_⟩
            · rw [h1]
              simp [newExcludes, List.filterMap_cons, hk1, hk2, hp]
            · simpa [newFollow, List.filterMap_cons, hk1, hk2] using h2
            · simpa [hasIgnoreDirective, hk2] using h3
            · rw [h4, lastGenMode_cons]
              have hg : genModeOf d = none := by simp [genModeOf, hk2]
              cases hlg : lastGenMode ds <;> simp [hlg, hg]
        · by_cases hk3 : d.Key = "follow"
          · by_cases hp : validPat (pathJoin rel d.Value)
            · simp only [hk1, hk2, hk3, hp, ne3, ne4, if_true, if_false, if_pos rfl, Except.ok.injEq] at hd
              subst hd
              refine ⟨?_, ?_, ?_, ?_⟩
              · simpa [newExcludes, List.filterMap_cons, hk1, hk2] using h1
              · rw [h2]
                simp [newFollow, List.filterMap_cons, hk1, hk3, hp]
              · simpa [hasIgnoreDirective, hk3] using h3
              · rw [h4, lastGenMode_cons]
                have hg : genModeOf d = none := by simp [genModeOf, hk3]
                cases hlg : lastGenMode ds <;> simp [hlg, hg]
            · simp [hk1, hk2, hk3, hp, ne3, ne4] at hd
              subst hd
              refine ⟨?_, ?_, ?_, ?_⟩
              · simpa [newExcludes, List.filterMap_cons, hk1, hk2] using h1
              · rw [h2]
                simp [newFollow, List.filterMap_cons, hk1, hk3, hp]
              · simpa [hasIgnoreDirective, hk3] using h3
              · rw [h4, lastGenMode_cons]
                have hg : genModeOf d = none := by simp [genModeOf, hk3]
                cases hlg : lastGenMode ds <;> simp [hlg, hg]
          · by_cases hk4 : d.Key = "ignore"
            · simp only [hk1, hk2, hk3, hk4, ne5, ne6, ne7, if_true, if_false, Except.ok.injEq] at hd
              subst hd
              refine ⟨?_, ?_, ?_, ?_⟩
              · simpa [newExcludes, List.filterMap_cons, hk1, hk2] using h1
              · simpa [newFollow, List.filterMap_cons, hk1, hk3] using h2
              · rw [h3]
                simp [hasIgnoreDirective, hk4]
              · rw [h4, lastGenMode_cons]
                have hg : genModeOf d = none := by simp [genModeOf, hk4]
                cases hlg : lastGenMode ds <;> simp [hlg, hg]
            · simp only [hk1, hk2, hk3, hk4, if_false, Except.ok.injEq] at hd
              subst hd
              refine ⟨?_, ?_, ?_, ?_⟩
              · simpa [newExcludes, List.filterMap_cons, hk1, hk2] using h1
              · simpa [newFollow, List.filterMap_cons, hk1, hk3] using h2
              · have hb : (d.Key == "ignore") = false := by simp [hk4]
                simpa [hasIgnoreDirective, hb] using h3
              · rw [h4, lastGenMode_cons]
                have hg : genModeOf d = none := by simp [genModeOf, hk1]
                cases hlg : lastGenMode ds <;> simp [hlg, hg]

/-- C1: a child WalkConfig is the parent copied with ignore reset to false
and the directives of the build-file descriptor applied in file order:
each valid exclude/follow value joined with the directory path is appended
after the parent's patterns, updateOnly is overridden by the last
recognized generation_mode (or kept), ignore is overwritten to whether this
descriptor declares ignore; with no descriptor the child equals the parent
except ignore = false. -/
theorem C1_configure_child (validPat : String → Bool) (wc : walkConfig) (rel : String) :
    Configure validPat wc rel none = .ok { wc with ignore := false } ∧
    ∀ (f : rule.File) (wc' : walkConfig),
      Configure validPat wc rel (some f) = .ok wc' →
      wc'.excludes = wc.excludes ++ newExcludes validPat rel f.Directives ∧
      wc'.follow = wc.follow ++ newFollow validPat rel f.Directives ∧
      wc'.ignore = hasIgnoreDirective f.Directives ∧
      wc'.updateOnly = (lastGenMode f.Directives).getD wc.updateOnly := by
  refine ⟨rfl, ?_⟩
  intro f wc' h
  unfold Configure at h
  obtain ⟨h1, h2, h3, h4⟩ :=
    configure_foldl_spec validPat rel f.Directives { wc with ignore := false } wc' h
  exact ⟨by simpa using h1, by simpa using h2, by simpa using h3, by simpa using h4⟩

theorem C1_configure_child_witness :
    demoChildWC.excludes = demoParentWC.excludes ++ newExcludes demoVP "sub" demoFile.Directives ∧
    demoChildWC.follow = demoParentWC.follow ++ newFollow demoVP "sub" demoFile.Directives ∧
    demoChildWC.ignore = hasIgnoreDirective demoFile.Directives ∧
    demoChildWC.updateOnly = (lastGenMode demoFile.Directives).getD demoParentWC.updateOnly :=
  (C1_configure_child demoVP demoParentWC "sub").2 demoFile demoChildWC (by rfl)

theorem foldlM_applyDirective_error (validPat : String → Bool) (rel : String)
    (d : rule.Directive) (msg : String)
    (hall : ∀ acc : walkConfig, applyDirective validPat rel acc d = .error msg) :
    ∀ (ds1 ds2 : List rule.Directive) (init : walkConfig),
      ∃ e, (ds1 ++ d :: ds2).foldlM (applyDirective validPat rel) init = .error e := by
  intro ds1
  induction ds1 with
  | nil =>
    intro ds2 init
    refine ⟨msg, ?_⟩
    rw [List.nil_append, List.foldlM_cons, hall init]
    rfl
  | cons a ds1 ih =>
    intro ds2 init
    rw [List.cons_append, List.foldlM_cons]
    cases ha : applyDirective validPat rel init a with
    | error e => exact ⟨e, rfl⟩
    | ok acc' =>
      obtain ⟨e, he⟩ := ih ds2 acc'
      exact ⟨e, by simpa [Bind.bind, Except.bind] using he⟩

theorem foldlM_applyDirective_skip (validPat : String → Bool) (rel : String)
    (d : rule.Directive)
    (hall : ∀ acc : walkConfig, applyDirective validPat rel acc d = .ok acc) :
    ∀ (ds1 ds2 : List rule.Directive) (init : walkConfig),
      (ds1 ++ d :: ds2).foldlM (applyDirective validPat rel) init
        = (ds1 ++ ds2).foldlM (applyDirective validPat rel) init := by
  intro ds1
  induction ds1 with
  | nil =>
    intro ds2 init
    rw [List.nil_append, List.nil_append, List.foldlM_cons, hall init]
    rfl
  | cons a ds1 ih =>
    intro ds2 init
    rw [List.cons_append, List.cons_append, List.foldlM_cons, List.foldlM_cons]
    cases ha : applyDirective validPat rel init a with
    | error e => rfl
    | ok acc' =>
      simp only [Bind.bind, Except.bind]
      exact ih ds2 acc'

/-- C6: a generation_mode directive with an unrecognized value makes the
run abort (it is never silently ignored), update_only sets updateOnly to
true, create_and_update sets it to false, while an exclude or follow
directive whose joined pattern fails glob validation is dropped and all
remaining directives are still applied. -/
theorem C6_generation_mode_fatal_glob_skip
    (validPat : String → Bool) (rel : String) (wc : walkConfig) (pkg : String)
    (ds1 ds2 : List rule.Directive) (d : rule.Directive) :
    (d.Key = "generation_mode" → trimSpace d.Value ≠ "update_only" →
      trimSpace d.Value ≠ "create_and_update" →
      ∃ e, Configure validPat wc rel (some ⟨ds1 ++ d :: ds2, pkg⟩) = .error e) ∧
    (d.Key = "generation_mode" → trimSpace d.Value = "update_only" →
      applyDirective validPat rel wc d = .ok { wc with updateOnly := true }) ∧
    (d.Key = "generation_mode" → trimSpace d.Value = "create_and_update" →
      applyDirective validPat rel wc d = .ok { wc with updateOnly := false }) ∧
    ((d.Key = "exclude" ∨ d.Key = "follow") → validPat (pathJoin rel d.Value) = false →
      Configure validPat wc rel (some ⟨ds1 ++ d :: ds2, pkg⟩)
        = Configure validPat wc rel (some ⟨ds1 ++ ds2, pkg⟩)) := by
  refine ⟨?_, ?_, ?_, ?_⟩
  · intro hk hv1 hv2
    have hall : ∀ acc : walkConfig,
        applyDirective validPat rel acc d = .error ("unknown generation_mode " ++ d.Value) := by
      intro acc
      simp [applyDirective, hk, hv1, hv2]
    unfold Configure
    exact foldlM_applyDirective_error validPat rel d _ hall ds1 ds2 _
  · intro hk hv
    simp [applyDirective, hk, hv]
  · intro hk hv
    have ne1 : ("create_and_update" : String) ≠ "update_only" := by decide
    simp [applyDirective, hk, hv, ne1]
  · intro hk hp
    have hall : ∀ acc : walkConfig, applyDirective validPat rel acc d = .ok acc := by
      intro acc
      cases hk with
      | inl h =>
        have ne2 : ("exclude" : String) ≠ "generation_mode" := by decide
        simp [applyDirective, h, hp, ne2]
      | inr h =>
        have ne3 : ("follow" : String) ≠ "generation_mode" := by decide
        have ne4 : ("follow" : String) ≠ "exclude" := by decide
        simp [applyDirective, h, hp, ne3, ne4]
    unfold Configure
    exact foldlM_applyDirective_skip validPat rel d hall ds1 ds2 _

theorem C6_generation_mode_fatal_glob_skip_witness :
    (∃ e, Configure demoVP wcEmpty "" (some ⟨[⟨"generation_mode", "bogus"⟩], ""⟩) = .error e) ∧
    applyDirective demoVP "" wcEmpty ⟨"generation_mode", "update_only"⟩
      = .ok { wcEmpty with updateOnly := true } ∧
    applyDirective demoVP "" wcEmpty ⟨"generation_mode", "create_and_update"⟩
      = .ok { wcEmpty with updateOnly := false } ∧
    Configure demoVP wcEmpty "" (some ⟨[⟨"exclude", "[bad"⟩, ⟨"exclude", "ok"⟩], ""⟩)
      = Configure demoVP wcEmpty "" (some ⟨[⟨"exclude", "ok"⟩], ""⟩) :=
  ⟨(C6_generation_mode_fatal_glob_skip demoVP "" wcEmpty "" [] []
      ⟨"generation_mode", "bogus"⟩).1 rfl (by decide) (by decide),
   (C6_generation_mode_fatal_glob_skip demoVP "" wcEmpty "" [] []
      ⟨"generation_mode", "update_only"⟩).2.1 rfl (by decide),
   (C6_generation_mode_fatal_glob_skip demoVP "" wcEmpty "" [] []
      ⟨"generation_mode", "create_and_update"⟩).2.2.1 rfl (by decide),
   (C6_generation_mode_fatal_glob_skip demoVP "" wcEmpty "" [] [⟨"exclude", "ok"⟩]
      ⟨"exclude", "[bad"⟩).2.2.2 (Or.inl rfl) (by decide)⟩

end walk

namespace GoPath

theorem dropWhile_eq_of_length {p : Char → Bool} {l : List Char}
    (h : (l.dropWhile p).length = l.length) : l.dropWhile p = l :=
  (List.dropWhile_sublist p).eq_of_length h

theorem trim_self_facts {l : List Char} (h : trimL l = l) :
    l.dropWhile isSpaceGo = l ∧ l.reverse.dropWhile isSpaceGo = l.reverse := by
  unfold trimL at h
  have hlen : ((l.dropWhile isSpaceGo).reverse.dropWhile isSpaceGo).reverse.length = l.length :=
    congrArg List.length h
  have h1 : ((l.dropWhile isSpaceGo).reverse.dropWhile isSpaceGo).length = l.length := by
    simpa using hlen
  have le1 : ((l.dropWhile isSpaceGo).reverse.dropWhile isSpaceGo).length
      ≤ (l.dropWhile isSpaceGo).reverse.length :=
    (List.dropWhile_sublist _).length_le
  have le2 : (l.dropWhile isSpaceGo).length ≤ l.length :=
    (List.dropWhile_sublist _).length_le
  have hA : (l.dropWhile isSpaceGo).length = l.length := by
    simp only [List.length_reverse] at le1
    omega
  have hAe : l.dropWhile isSpaceGo = l := dropWhile_eq_of_length hA
  refine ⟨hAe, ?_⟩
  rw [hAe] at h
  have := congrArg List.reverse h
  simpa using this

theorem trimL_dotslash {l : List Char} (h : trimL l = l) :
    trimL ('.' :: '/' :: l) = '.' :: '/' :: l := by
  obtain ⟨h1, h2⟩ := trim_self_facts h
  unfold trimL
  have hd : ('.' :: '/' :: l).dropWhile isSpaceGo = '.' :: '/' :: l := by
    rw [List.dropWhile_cons]
    simp [isSpaceGo]
  rw [hd]
  have hrev : ('.' :: '/' :: l).reverse.dropWhile isSpaceGo = ('.' :: '/' :: l).reverse := by
    rw [List.reverse_cons, List.reverse_cons]
    cases hl : l.reverse with
    | nil => simp [List.dropWhile_cons, isSpaceGo]
    | cons b rest =>
      have hb : isSpaceGo b = false := by
        rw [hl, List.dropWhile_cons] at h2
        by_cases hpb : isSpaceGo b = true
        · rw [if_pos hpb] at h2
          have hl1 := congrArg List.length h2
          have hl2 : (rest.dropWhile isSpaceGo).length ≤ rest.length :=
            (List.dropWhile_sublist _).length_le
          simp at hl1
          omega
        · simpa using hpb
      rw [List.append_assoc, List.cons_append, List.dropWhile_cons, hb]
      simp
  rw [hrev]
  simp

theorem splitChar_ne_nil (sep : Char) : ∀ l, splitChar sep l ≠ [] := by
  intro l
  induction l with
  | nil => simp [splitChar]
  | cons c rest ih =>
    rw [splitChar]
    by_cases h : c = sep
    · simp [h]
    · simp only [h, if_false]
      cases hs : splitChar sep rest with
      | nil => exact absurd hs ih
      | cons s ss => simp

theorem splitChar_append (sep : Char) (b : List Char) :
    ∀ a, splitChar sep (a ++ sep :: b) = splitChar sep a ++ splitChar sep b := by
  intro a
  induction a with
  | nil => simp [splitChar]
  | cons c rest ih =>
    by_cases h : c = sep
    · subst h
      rw [List.cons_append, splitChar, if_pos rfl, ih, splitChar, if_pos rfl]
      rfl
    · rw [List.cons_append, splitChar, if_neg h, ih]
      cases hs : splitChar sep rest with
      | nil => exact absurd hs (splitChar_ne_nil sep rest)
      | cons s ss =>
        rw [splitChar, if_neg h, hs]
        rfl

theorem splitChar_no_sep (sep : Char) : ∀ l, sep ∉ l → splitChar sep l = [l] := by
  intro l
  induction l with
  | nil => intro _; rfl
  | cons c rest ih =>
    intro h
    have hc : ¬(c = sep) := fun he => h (he ▸ List.mem_cons_self c rest)
    have hr : sep ∉ rest := fun hm => h (List.mem_cons_of_mem c hm)
    rw [splitChar, if_neg hc, ih hr]

theorem joinChar_cons_cons (sep : Char) (s s2 : List Char) (ss : List (List Char)) :
    joinChar sep (s :: s2 :: ss) = s ++ sep :: joinChar sep (s2 :: ss) := rfl

theorem joinChar_splitChar (sep : Char) : ∀ l, joinChar sep (splitChar sep l) = l := by
  intro l
  induction l with
  | nil => rfl
  | cons c rest ih =>
    by_cases h : c = sep
    · rw [splitChar, if_pos h]
      cases hs : splitChar sep rest with
      | nil => exact absurd hs (splitChar_ne_nil sep rest)
      | cons s ss =>
        rw [hs] at ih
        rw [joinChar_cons_cons, h]
        simpa using ih
    · rw [splitChar, if_neg h]
      cases hs : splitChar sep rest with
      | nil => exact absurd hs (splitChar_ne_nil sep rest)
      | cons s ss =>
        rw [hs] at ih
        cases ss with
        | nil =>
          simp only [joinChar] at ih ⊢
          rw [ih]
        | cons s2 ss2 =>
          simp only [joinChar, List.cons_append] at ih ⊢
          rw [← ih]

theorem splitChar_joinChar (sep : Char) :
    ∀ segs : List (List Char), segs ≠ [] → (∀ seg ∈ segs, sep ∉ seg) →
      splitChar sep (joinChar sep segs) = segs := by
  intro segs
  induction segs with
  | nil => intro h; exact absurd rfl h
  | cons s ss ih =>
    intro _ hall
    cases ss with
    | nil =>
      rw [joinChar]
      exact splitChar_no_sep sep s (hall s (List.mem_cons_self s []))
    | cons s2 ss2 =>
      rw [joinChar_cons_cons, splitChar_append]
      rw [splitChar_no_sep sep s (hall s (List.mem_cons_self s _))]
      rw [ih (List.cons_ne_nil s2 ss2) (fun seg hm => hall seg (List.mem_cons_of_mem s hm))]
      rfl

theorem pathCleanL_dotslash {l : List Char} (h : l.head? ≠ some '/') :
    pathCleanL ('.' :: '/' :: l) = pathCleanL l := by
  unfold pathCleanL
  have hs : splitChar '/' ('.' :: '/' :: l) = ['.'] :: splitChar '/' l := by
    have h2 := splitChar_append '/' l ['.']
    simp only [List.cons_append, List.nil_append] at h2
    rw [h2]
    rfl
  have hr1 : (('.' :: '/' :: l).head? == some '/') = false := by simp
  have hr2 : (l.head? == some '/') = false := by
    cases hh : l.head? with
    | none => rfl
    | some c =>
      have : ¬(c = '/') := fun he => h (by rw [hh, he])
      simp [this]
  rw [hs, hr1, hr2]
  simp only [Bool.false_eq_true, if_false, List.foldl_cons]
  have hpush : cleanPush false [] ['.'] = [] := by simp [cleanPush]
  rw [hpush]

end GoPath

namespace walk

open GoPath

/-- C8: for each ignore source, a missing file yields the nothing-ignored
predicate and no error, while a file that exists but cannot be read (or,
for the repo-metadata file, cannot be parsed) yields a non-nil error for
that source. -/
theorem C8_ignore_source_errors (e pe : String)
    (validPat : String → Bool) (dsMatch : String → String → Bool) :
    loadBazelIgnore none = (nothingIgnored, none) ∧
    (loadBazelIgnore (some (.error e))).1 = nothingIgnored ∧
    (loadBazelIgnore (some (.error e))).2.isSome = true ∧
    loadRepoDirectoryIgnore validPat dsMatch none = (nothingIgnored, none) ∧
    (loadRepoDirectoryIgnore validPat dsMatch (some (.error e))).1 = nothingIgnored ∧
    (loadRepoDirectoryIgnore validPat dsMatch (some (.error e))).2.isSome = true ∧
    (loadRepoDirectoryIgnore validPat dsMatch (some (.ok (.error pe)))).1 = nothingIgnored ∧
    (loadRepoDirectoryIgnore validPat dsMatch (some (.ok (.error pe)))).2.isSome = true :=
  ⟨rfl, rfl, rfl, rfl, rfl, rfl, rfl, rfl⟩

/-- C5 fails on the code as stated: with flat-ignore content consisting of
the single directory entry "dir3/", the stored entry is "dir3" and the
path "dir3/g" lies strictly beneath that directory entry, yet the loaded
predicate returns false for it. The predicate is exact membership;
subtree removal of ignored directories happens because the walk never
descends into them, not through the predicate. -/
theorem C5_counterexample :
    bazelIgnoreEntries "dir3/\n" = ["dir3"] ∧
    "dir3/g" = "dir3" ++ "/" ++ "g" ∧
    (loadBazelIgnore (some (.ok "dir3/\n"))).1 "dir3/g" = false := by
  refine ⟨by decide, by decide, by decide⟩

/-- C5 (amended): the flat-ignore predicate is exact membership in the set
of cleaned stored entries: true for p iff some line of the file trims to a
non-blank, non-comment, glob-free entry whose cleaned form is p. An entry
written with a leading "./" processes to the same stored path as without
it, and blank lines, comment lines, and glob-bearing lines contribute
nothing to the predicate. -/
theorem C5_flat_ignore_membership (content p l : String) :
    ((loadBazelIgnore (some (.ok content))).1 p = true ↔
      ∃ lc ∈ splitChar '\n' content.data, processBazelIgnoreLine (String.mk lc) = some p) ∧
    (trimSpace l = l → l ≠ "" → startsWithHash l = false → l.data.head? ≠ some '/' →
      processBazelIgnoreLine ("./" ++ l) = processBazelIgnoreLine l) ∧
    ((trimSpace l = "" ∨ startsWithHash (trimSpace l) = true ∨
        containsGlobChar (trimSpace l) = true) →
      processBazelIgnoreLine l = none) := by
  refine ⟨?_, ?_, ?_⟩
  · show (bazelIgnoreEntries content).contains p = true ↔ _
    rw [List.contains, List.elem_iff]
    unfold bazelIgnoreEntries
    rw [List.mem_filterMap]
  · intro ht hne hhash hslash
    have hdata : ("./" ++ l).data = '.' :: '/' :: l.data := by
      rw [String.data_append]
      rfl
    have htl : trimL l.data = l.data := congrArg String.data ht
    have htrim : trimSpace ("./" ++ l) = "./" ++ l := by
      unfold trimSpace
      rw [hdata, trimL_dotslash htl]
      apply congrArg String.mk
      exact hdata.symm
    unfold processBazelIgnoreLine
    rw [htrim, ht]
    have hne2 : ("./" ++ l) ≠ "" := by
      intro hcon
      have := congrArg String.data hcon
      rw [hdata] at this
      exact absurd this (by simp)
    have hhash2 : startsWithHash ("./" ++ l) = false := by
      unfold startsWithHash
      rw [hdata]
      simp
    have hglob : containsGlobChar ("./" ++ l) = containsGlobChar l := by
      unfold containsGlobChar
      rw [hdata]
      simp
    rw [if_neg hne2, if_neg hne, hhash2, hhash]
    simp only [Bool.false_eq_true, if_false]
    rw [hglob]
    by_cases hg : containsGlobChar l = true
    · rw [hg]
      simp
    · rw [Bool.not_eq_true] at hg
      rw [hg]
      simp only [Bool.false_eq_true, if_false]
      have hcl : pathClean ("./" ++ l) = pathClean l := by
        unfold pathClean
        rw [hdata, pathCleanL_dotslash hslash]
      rw [hcl]
  · intro hcase
    unfold processBazelIgnoreLine
    rcases hcase with hb | hh | hg
    · rw [hb]
      simp
    · by_cases hb : trimSpace l = ""
      · rw [hb]; simp
      · rw [if_neg hb, hh]
        simp
    · by_cases hb : trimSpace l = ""
      · rw [hb]; simp
      · rw [if_neg hb]
        by_cases hh : startsWithHash (trimSpace l) = true
        · rw [hh]; simp
        · rw [Bool.not_eq_true] at hh
          rw [hh]
          simp only [Bool.false_eq_true, if_false]
          rw [hg]
          simp

theorem C5_flat_ignore_membership_witness :
    ((loadBazelIgnore (some (.ok "dir3/\n./b.file"))).1 "dir3" = true ↔
      ∃ lc ∈ splitChar '\n' ("dir3/\n./b.file" : String).data,
        processBazelIgnoreLine (String.mk lc) = some "dir3") ∧
    processBazelIgnoreLine ("./" ++ "b.file") = processBazelIgnoreLine "b.file" ∧
    processBazelIgnoreLine "# comment" = none :=
  ⟨(C5_flat_ignore_membership "dir3/\n./b.file" "dir3" "b.file").1,
   (C5_flat_ignore_membership "dir3/\n./b.file" "dir3" "b.file").2.1
     (by decide) (by decide) (by decide) (by decide),
   (C5_flat_ignore_membership "dir3/\n./b.file" "dir3" "# comment").2.2
     (Or.inr (Or.inl (by decide)))⟩

end walk

namespace walk

/-- C10: on the same storage, parent configuration, and build-file
descriptor, the newer loadDirInfo (src/unnamed/part_002) returns exactly
the subdirectory and regular-file lists, descriptor, configuration, and
error of the older loadDirInfo (src/unnamed/part_003), and aborts exactly
when it does; it differs only by additionally computing GenFiles (the
slice-capacity capping is not observable on lists). -/
theorem C10_loader_refinement (w : walker) (pc : walkConfig) (rel : String) :
    (∀ e, loadDirInfo w pc rel = .error e ↔ loadDirInfoOld w pc rel = .error e) ∧
    (∀ info errs info' errs',
      loadDirInfo w pc rel = .ok (info, errs) →
      loadDirInfoOld w pc rel = .ok (info', errs') →
      info.Subdirs = info'.subdirs ∧ info.RegularFiles = info'.regularFiles ∧
      info.File = info'.file ∧ info.config = info'.config ∧ errs = errs' ∧
      info.GenFiles = w.findGenFiles info.config info.File) := by
  constructor
  · intro e
    unfold loadDirInfo loadDirInfoOld
    cases hc : Configure w.validPat pc rel (w.loadBuildFile pc rel (entriesOf w rel)).1 with
    | error e2 => simp [hc]
    | ok config => simp [hc]
  · intro info errs info' errs' h1 h2
    unfold loadDirInfo at h1
    unfold loadDirInfoOld at h2
    cases hc : Configure w.validPat pc rel (w.loadBuildFile pc rel (entriesOf w rel)).1 with
    | error e2 =>
      simp [hc] at h1
    | ok config =>
      simp only [hc, Except.ok.injEq, Prod.mk.injEq] at h1 h2
      obtain ⟨hi1, he1⟩ := h1
      obtain ⟨hi2, he2⟩ := h2
      subst hi1
      subst hi2
      subst he1
      subst he2
      exact ⟨rfl, rfl, rfl, rfl, rfl, rfl⟩

theorem C10_loader_refinement_witness :
    (∀ e, loadDirInfo demoWalker wcEmpty "" = .error e ↔
      loadDirInfoOld demoWalker wcEmpty "" = .error e) ∧
    ({ Subdirs := ["a", "bad", "pbad"], RegularFiles := ["f.go"], GenFiles := [],
       File := none, config := wcEmpty } : DirInfo).Subdirs
      = ({ subdirs := ["a", "bad", "pbad"], regularFiles := ["f.go"],
           file := none, config := wcEmpty } : dirInfo).subdirs :=
  ⟨(C10_loader_refinement demoWalker wcEmpty "").1,
   ((C10_loader_refinement demoWalker wcEmpty "").2
      { Subdirs := ["a", "bad", "pbad"], RegularFiles := ["f.go"], GenFiles := [],
        File := none, config := wcEmpty } []
      { subdirs := ["a", "bad", "pbad"], regularFiles := ["f.go"],
        file := none, config := wcEmpty } []
      (by rfl) (by rfl)).1⟩

/-- C4: when the derived configuration marks the directory itself as
excluded, loadDirInfo returns empty Subdirs and RegularFiles, and still
returns the parsed build-file descriptor, the derived configuration, and
the error collected before enumeration, unchanged by enumeration. -/
theorem C4_excluded_self (w : walker) (pc : walkConfig) (rel : String)
    (info : DirInfo) (errs : List String)
    (hok : loadDirInfo w pc rel = .ok (info, errs))
    (hex : isExcludedDir w info.config rel = true) :
    info.Subdirs = [] ∧ info.RegularFiles = [] ∧
    info.File = (w.loadBuildFile pc rel (entriesOf w rel)).1 ∧
    Configure w.validPat pc rel info.File = .ok info.config ∧
    errs = readDirErrs w rel ++
      (match (w.loadBuildFile pc rel (entriesOf w rel)).2 with
       | some e => [e] | none => []) := by
  unfold loadDirInfo at hok
  cases hc : Configure w.validPat pc rel (w.loadBuildFile pc rel (entriesOf w rel)).1 with
  | error e =>
    simp [hc] at hok
  | ok config =>
    simp only [hc, Except.ok.injEq, Prod.mk.injEq] at hok
    obtain ⟨hi, he⟩ := hok
    subst hi
    subst he
    simp only at hex
    refine ⟨?_, ?_, rfl, hc, rfl⟩
    · simp only [hex, if_true, classifyEntries, List.foldl_nil]
    · simp only [hex, if_true, classifyEntries, List.foldl_nil]

theorem C4_excluded_self_witness :
    ({ Subdirs := [], RegularFiles := [], GenFiles := [],
       File := none, config := wcEmpty } : DirInfo).Subdirs = [] ∧
    ({ Subdirs := [], RegularFiles := [], GenFiles := [],
       File := none, config := wcEmpty } : DirInfo).RegularFiles = [] ∧
    ({ Subdirs := [], RegularFiles := [], GenFiles := [],
       File := none, config := wcEmpty } : DirInfo).File
      = (demoWalker.loadBuildFile wcEmpty "ex" (entriesOf demoWalker "ex")).1 ∧
    Configure demoWalker.validPat wcEmpty "ex"
        ({ Subdirs := [], RegularFiles := [], GenFiles := [],
           File := none, config := wcEmpty } : DirInfo).File
      = .ok ({ Subdirs := [], RegularFiles := [], GenFiles := [],
               File := none, config := wcEmpty } : DirInfo).config ∧
    ([] : List String) = readDirErrs demoWalker "ex" ++
      (match (demoWalker.loadBuildFile wcEmpty "ex" (entriesOf demoWalker "ex")).2 with
       | some e => [e] | none => []) :=
  C4_excluded_self demoWalker wcEmpty "ex"
    { Subdirs := [], RegularFiles := [], GenFiles := [], File := none, config := wcEmpty }
    [] (by rfl) (by rfl)

/-- C7: a storage read error does not abort loadDirInfo: it returns empty
file lists, the configuration still derived from the parent and whatever
descriptor loaded, and a non-empty error list containing the storage
error; a build-file parse error likewise returns an absent descriptor
with the directory contents intact and the parse error recorded. -/
theorem C7_error_degradation (w : walker) (pc : walkConfig) (rel : String) :
    (∀ e cfg, w.readDir rel = .error e →
      Configure w.validPat pc rel ((w.loadBuildFile pc rel []).1) = .ok cfg →
      ∃ info errs, loadDirInfo w pc rel = .ok (info, errs) ∧
        e ∈ errs ∧ errs ≠ [] ∧ info.Subdirs = [] ∧ info.RegularFiles = [] ∧
        info.File = (w.loadBuildFile pc rel []).1 ∧ info.config = cfg) ∧
    (∀ pe, w.loadBuildFile pc rel (entriesOf w rel) = (none, some pe) →
      ∃ info errs info' errs',
        loadDirInfo w pc rel = .ok (info, errs) ∧
        loadDirInfo (cleanBuildFileW w) pc rel = .ok (info', errs') ∧
        info.File = none ∧ pe ∈ errs ∧ errs = errs' ++ [pe] ∧
        info.Subdirs = info'.Subdirs ∧ info.RegularFiles = info'.RegularFiles ∧
        info.config = info'.config) := by
  constructor
  · intro e cfg herr hcfg
    have hent : entriesOf w rel = [] := by simp [entriesOf, herr]
    have herrs : readDirErrs w rel = [e] := by simp [readDirErrs, herr]
    have hload : loadDirInfo w pc rel = .ok
        ({ Subdirs := [], RegularFiles := [],
           GenFiles := w.findGenFiles cfg (w.loadBuildFile pc rel []).1,
           File := (w.loadBuildFile pc rel []).1, config := cfg },
         [e] ++ (match (w.loadBuildFile pc rel []).2 with | some e2 => [e2] | none => [])) := by
      simp only [loadDirInfo, hent, herrs, hcfg, ite_self]
      rfl
    exact ⟨_, _, hload, by simp, by simp, rfl, rfl, rfl, rfl⟩
  · intro pe hbf
    have hc0 : Configure w.validPat pc rel none = .ok { pc with ignore := false } := rfl
    have hload : loadDirInfo w pc rel = .ok
        ({ Subdirs := (classifyEntries w { pc with ignore := false } rel
             (if isExcludedDir w { pc with ignore := false } rel then [] else entriesOf w rel)).1,
           RegularFiles := (classifyEntries w { pc with ignore := false } rel
             (if isExcludedDir w { pc with ignore := false } rel then [] else entriesOf w rel)).2,
           GenFiles := w.findGenFiles { pc with ignore := false } none,
           File := none, config := { pc with ignore := false } },
         readDirErrs w rel ++ [pe]) := by
      simp only [loadDirInfo, hbf, hc0]
    have hbf2 : (cleanBuildFileW w).loadBuildFile pc rel (entriesOf (cleanBuildFileW w) rel)
        = (none, none) := rfl
    have hc2 : Configure (cleanBuildFileW w).validPat pc rel none
        = .ok { pc with ignore := false } := rfl
    have hload' : loadDirInfo (cleanBuildFileW w) pc rel = .ok
        ({ Subdirs := (classifyEntries (cleanBuildFileW w) { pc with ignore := false } rel
             (if isExcludedDir (cleanBuildFileW w) { pc with ignore := false } rel then []
              else entriesOf (cleanBuildFileW w) rel)).1,
           RegularFiles := (classifyEntries (cleanBuildFileW w) { pc with ignore := false } rel
             (if isExcludedDir (cleanBuildFileW w) { pc with ignore := false } rel then []
              else entriesOf (cleanBuildFileW w) rel)).2,
           GenFiles := (cleanBuildFileW w).findGenFiles { pc with ignore := false } none,
           File := none, config := { pc with ignore := false } },
         readDirErrs (cleanBuildFileW w) rel) := by
      simp only [loadDirInfo, hbf2, hc2, List.append_nil]
    exact ⟨_, _, _, _, hload, hload', rfl, by simp, rfl, rfl, rfl, rfl⟩

theorem C7_error_degradation_witness :
    (∃ info errs, loadDirInfo demoWalker wcEmpty "bad" = .ok (info, errs) ∧
      "read failure" ∈ errs ∧ errs ≠ [] ∧ info.Subdirs = [] ∧ info.RegularFiles = [] ∧
      info.File = (demoWalker.loadBuildFile wcEmpty "bad" []).1 ∧ info.config = wcEmpty) ∧
    (∃ info errs info' errs',
      loadDirInfo demoWalker wcEmpty "pbad" = .ok (info, errs) ∧
      loadDirInfo (cleanBuildFileW demoWalker) wcEmpty "pbad" = .ok (info', errs') ∧
      info.File = none ∧ "build file syntax error" ∈ errs ∧
      errs = errs' ++ ["build file syntax error"] ∧
      info.Subdirs = info'.Subdirs ∧ info.RegularFiles = info'.RegularFiles ∧
      info.config = info'.config) :=
  ⟨(C7_error_degradation demoWalker wcEmpty "bad").1 "read failure" wcEmpty (by rfl) (by rfl),
   (C7_error_degradation demoWalker wcEmpty "pbad").2 "build file syntax error" (by rfl)⟩

end walk

namespace walk

theorem cacheFind_append_of_some {c : CacheState} {k : String} {r : dirInfo × List String}
    (h : cacheFind c k = some r) (xs : CacheState) : cacheFind (c ++ xs) k = some r := by
  induction c with
  | nil => simp [cacheFind] at h
  | cons kv rest ih =>
    rw [List.cons_append, cacheFind]
    rw [cacheFind] at h
    by_cases hk : kv.1 = k
    · rw [if_pos hk] at h ⊢
      exact h
    · rw [if_neg hk] at h ⊢
      exact ih h

theorem cacheFind_append_self {c : CacheState} {k : String}
    (h : cacheFind c k = none) (v : dirInfo × List String) :
    cacheFind (c ++ [(k, v)]) k = some v := by
  induction c with
  | nil => simp [cacheFind]
  | cons kv rest ih =>
    rw [List.cons_append, cacheFind]
    rw [cacheFind] at h
    by_cases hk : kv.1 = k
    · rw [if_pos hk] at h
      exact absurd h (by simp)
    · rw [if_neg hk] at h ⊢
      exact ih h

theorem runCacheOps_preserves
    (ops : List (String × (String → dirInfo × List String))) :
    ∀ (c : CacheState) (k : String) (r : dirInfo × List String),
      cacheFind c k = some r → cacheFind (runCacheOps c ops) k = some r := by
  induction ops with
  | nil => intro c k r h; exact h
  | cons op ops ih =>
    intro c k r h
    show cacheFind (runCacheOps (cacheGet c op.1 op.2).2.1 ops) k = some r
    apply ih
    unfold cacheGet
    cases hf : cacheFind c op.1 with
    | some r2 => exact h
    | none => exact cacheFind_append_of_some h _

/-- C2: once a get for a key has returned a result, that slot is never
recomputed, replaced, or invalidated by any later sequence of cache
operations, and every subsequent get for the key returns the identical
result without invoking its loader. -/
theorem C2_cache_slot_stable
    (c : CacheState) (k : String) (load load' : String → dirInfo × List String)
    (r : dirInfo × List String) (c' : CacheState) (b : Bool)
    (ops : List (String × (String → dirInfo × List String)))
    (h : cacheGet c k load = (r, c', b)) :
    cacheFind (runCacheOps c' ops) k = some r ∧
    cacheGet (runCacheOps c' ops) k load' = (r, runCacheOps c' ops, false) := by
  have hc' : cacheFind c' k = some r := by
    unfold cacheGet at h
    cases hf : cacheFind c k with
    | some r0 =>
      rw [hf] at h
      simp only [Prod.mk.injEq] at h
      obtain ⟨hr, hc, _⟩ := h
      subst hr
      subst hc
      exact hf
    | none =>
      rw [hf] at h
      simp only [Prod.mk.injEq] at h
      obtain ⟨hr, hc, _⟩ := h
      subst hr
      subst hc
      exact cacheFind_append_self hf _
  have hrun := runCacheOps_preserves ops c' k r hc'
  refine ⟨hrun, ?_⟩
  unfold cacheGet
  rw [hrun]

theorem C2_cache_slot_stable_witness :
    cacheFind (runCacheOps [("k", (demoInfo, []))] [("other", demoLoad)]) "k"
      = some (demoInfo, []) ∧
    cacheGet (runCacheOps [("k", (demoInfo, []))] [("other", demoLoad)]) "k" demoLoad2
      = ((demoInfo, []), runCacheOps [("k", (demoInfo, []))] [("other", demoLoad)], false) :=
  C2_cache_slot_stable [] "k" demoLoad demoLoad2 (demoInfo, [])
    [("k", (demoInfo, []))] true [("other", demoLoad)] (by rfl)

end walk

namespace walk

theorem ceventContains_iff {l : List CEvent} {x : CEvent} : l.contains x = true ↔ x ∈ l :=
  List.elem_iff

theorem mem_append_singleton {x e : CEvent} {l : List CEvent} :
    x ∈ l ++ [e] ↔ x ∈ l ∨ x = e := by
  simp [List.mem_append]

theorem traceInv_nil : TraceInv [] := by
  unfold TraceInv
  refine ⟨?_, ?_, ?_, ?_, ?_, ?_, ?_⟩ <;> simp

theorem traceInv_step {past : List CEvent} {e : CEvent}
    (hInv : TraceInv past) (hok : okEvent past e = true) : TraceInv (past ++ [e]) := by
  obtain ⟨i1, i2, i3, i4, i5, i6, i7⟩ := hInv
  cases e with
  | install tid k0 =>
    simp only [okEvent, Bool.not_eq_true'] at hok
    have hno : ∀ t, CEvent.install t k0 ∉ past := by
      intro t hmem
      have hany : past.any (fun e => isInstallFor e k0) = true :=
        List.any_eq_true.mpr ⟨_, hmem, by simp [isInstallFor]⟩
      rw [hany] at hok
      exact absurd hok (by simp)
    refine ⟨?_, ?_, ?_, ?_, ?_, ?_, ?_⟩
    · intro k t t' h1 h2
      rcases mem_append_singleton.mp h1 with h1' | h1' <;>
        rcases mem_append_singleton.mp h2 with h2' | h2'
      · exact i1 k t t' h1' h2'
      · obtain ⟨ht', hk⟩ := CEvent.install.inj h2'
        subst hk
        exact absurd h1' (hno t)
      · obtain ⟨ht, hk⟩ := CEvent.install.inj h1'
        subst hk
        exact absurd h2' (hno t')
      · obtain ⟨ht, _⟩ := CEvent.install.inj h1'
        obtain ⟨ht', _⟩ := CEvent.install.inj h2'
        rw [ht, ht']
    · intro k t h
      rcases mem_append_singleton.mp h with h' | h'
      · exact mem_append_singleton.mpr (Or.inl (i2 k t h'))
      · exact absurd h' (by simp)
    · intro k t r h
      rcases mem_append_singleton.mp h with h' | h'
      · exact mem_append_singleton.mpr (Or.inl (i3 k t r h'))
      · exact absurd h' (by simp)
    · intro k t r h
      rcases mem_append_singleton.mp h with h' | h'
      · obtain ⟨t', ht'⟩ := i4 k t r h'
        exact ⟨t', mem_append_singleton.mpr (Or.inl ht')⟩
      · exact absurd h' (by simp)
    · intro k t t' r r' h1 h2
      rcases mem_append_singleton.mp h1 with h1' | h1'
      · rcases mem_append_singleton.mp h2 with h2' | h2'
        · exact i5 k t t' r r' h1' h2'
        · exact absurd h2' (by simp)
      · exact absurd h1' (by simp)
    · intro k t t' h1 h2
      rcases mem_append_singleton.mp h1 with h1' | h1'
      · rcases mem_append_singleton.mp h2 with h2' | h2'
        · exact i6 k t t' h1' h2'
        · exact absurd h2' (by simp)
      · exact absurd h1' (by simp)
    · intro k
      rw [List.filter_append]
      have hf : ([CEvent.install tid k0].filter (fun e => isInvokeFor e k)) = [] := by
        simp [isInvokeFor]
      rw [hf, List.append_nil]
      exact i7 k
  | invoke tid k0 =>
    simp only [okEvent, Bool.and_eq_true, Bool.not_eq_true'] at hok
    obtain ⟨hinst, hninv⟩ := hok
    have hinst : CEvent.install tid k0 ∈ past := ceventContains_iff.mp hinst
    have hninv : CEvent.invoke tid k0 ∉ past := by
      intro hmem
      rw [ceventContains_iff.mpr hmem] at hninv
      exact absurd hninv (by simp)
    have hnoinv : ∀ t, CEvent.invoke t k0 ∉ past := by
      intro t hmem
      have hi := i2 k0 t hmem
      have := i1 k0 t tid hi hinst
      subst this
      exact hninv hmem
    refine ⟨?_, ?_, ?_, ?_, ?_, ?_, ?_⟩
    · intro k t t' h1 h2
      rcases mem_append_singleton.mp h1 with h1' | h1'
      · rcases mem_append_singleton.mp h2 with h2' | h2'
        · exact i1 k t t' h1' h2'
        · exact absurd h2' (by simp)
      · exact absurd h1' (by simp)
    · intro k t h
      rcases mem_append_singleton.mp h with h' | h'
      · exact mem_append_singleton.mpr (Or.inl (i2 k t h'))
      · obtain ⟨ht, hk⟩ := CEvent.invoke.inj h'
        subst ht
        subst hk
        exact mem_append_singleton.mpr (Or.inl hinst)
    · intro k t r h
      rcases mem_append_singleton.mp h with h' | h'
      · exact mem_append_singleton.mpr (Or.inl (i3 k t r h'))
      · exact absurd h' (by simp)
    · intro k t r h
      rcases mem_append_singleton.mp h with h' | h'
      · obtain ⟨t', ht'⟩ := i4 k t r h'
        exact ⟨t', mem_append_singleton.mpr (Or.inl ht')⟩
      · exact absurd h' (by simp)
    · intro k t t' r r' h1 h2
      rcases mem_append_singleton.mp h1 with h1' | h1'
      · rcases mem_append_singleton.mp h2 with h2' | h2'
        · exact i5 k t t' r r' h1' h2'
        · exact absurd h2' (by simp)
      · exact absurd h1' (by simp)
    · intro k t t' h1 h2
      rcases mem_append_singleton.mp h1 with h1' | h1'
      · rcases mem_append_singleton.mp h2 with h2' | h2'
        · exact i6 k t t' h1' h2'
        · obtain ⟨ht', hk⟩ := CEvent.invoke.inj h2'
          subst hk
          exact absurd h1' (hnoinv t)
      · obtain ⟨ht, hk⟩ := CEvent.invoke.inj h1'
        subst hk
        rcases mem_append_singleton.mp h2 with h2' | h2'
        · exact absurd h2' (hnoinv t')
        · obtain ⟨ht', _⟩ := CEvent.invoke.inj h2'
          rw [ht, ht']
    · intro k
      rw [List.filter_append]
      by_cases hk : k0 = k
      · subst hk
        have hpast : past.filter (fun e => isInvokeFor e k0) = [] := by
          rw [List.filter_eq_nil_iff]
          intro x hx hfx
          cases x with
          | invoke t k1 =>
            have : k1 = k0 := by simpa [isInvokeFor] using hfx
            subst this
            exact hnoinv t hx
          | install t k1 => simp [isInvokeFor] at hfx
          | publish t k1 r => simp [isInvokeFor] at hfx
          | ret t k1 r => simp [isInvokeFor] at hfx
        rw [hpast]
        simp [isInvokeFor]
      · have hf : ([CEvent.invoke tid k0].filter (fun e => isInvokeFor e k)) = [] := by
          simp [isInvokeFor, hk]
        rw [hf, List.append_nil]
        exact i7 k
  | publish tid k0 r0 =>
    simp only [okEvent, Bool.and_eq_true, Bool.not_eq_true'] at hok
    obtain ⟨hinv, hnpub⟩ := hok
    have hinv : CEvent.invoke tid k0 ∈ past := ceventContains_iff.mp hinv
    have hnopub : ∀ t r, CEvent.publish t k0 r ∉ past := by
      intro t r hmem
      have hi := i3 k0 t r hmem
      have heq := i6 k0 t tid hi hinv
      subst heq
      have hany : past.any (fun e => isPublishOf e t k0) = true :=
        List.any_eq_true.mpr ⟨_, hmem, by simp [isPublishOf]⟩
      rw [hany] at hnpub
      exact absurd hnpub (by simp)
    refine ⟨?_, ?_, ?_, ?_, ?_, ?_, ?_⟩
    · intro k t t' h1 h2
      rcases mem_append_singleton.mp h1 with h1' | h1'
      · rcases mem_append_singleton.mp h2 with h2' | h2'
        · exact i1 k t t' h1' h2'
        · exact absurd h2' (by simp)
      · exact absurd h1' (by simp)
    · intro k t h
      rcases mem_append_singleton.mp h with h' | h'
      · exact mem_append_singleton.mpr (Or.inl (i2 k t h'))
      · exact absurd h' (by simp)
    · intro k t r h
      rcases mem_append_singleton.mp h with h' | h'
      · exact mem_append_singleton.mpr (Or.inl (i3 k t r h'))
      · obtain ⟨ht, hk, _⟩ := CEvent.publish.inj h'
        subst ht
        subst hk
        exact mem_append_singleton.mpr (Or.inl hinv)
    · intro k t r h
      rcases mem_append_singleton.mp h with h' | h'
      · obtain ⟨t', ht'⟩ := i4 k t r h'
        exact ⟨t', mem_append_singleton.mpr (Or.inl ht')⟩
      · exact absurd h' (by simp)
    · intro k t t' r r' h1 h2
      rcases mem_append_singleton.mp h1 with h1' | h1'
      · rcases mem_append_singleton.mp h2 with h2' | h2'
        · exact i5 k t t' r r' h1' h2'
        · obtain ⟨ht', hk, hr'⟩ := CEvent.publish.inj h2'
          subst hk
          exact absurd h1' (hnopub t r)
      · obtain ⟨ht, hk, hr⟩ := CEvent.publish.inj h1'
        subst hk
        rcases mem_append_singleton.mp h2 with h2' | h2'
        · exact absurd h2' (hnopub t' r')
        · obtain ⟨ht', _, hr'⟩ := CEvent.publish.inj h2'
          subst ht
          subst ht'
          subst hr
          subst hr'
          exact ⟨rfl, rfl⟩
    · intro k t t' h1 h2
      rcases mem_append_singleton.mp h1 with h1' | h1'
      · rcases mem_append_singleton.mp h2 with h2' | h2'
        · exact i6 k t t' h1' h2'
        · exact absurd h2' (by simp)
      · exact absurd h1' (by simp)
    · intro k
      rw [List.filter_append]
      have hf : ([CEvent.publish tid k0 r0].filter (fun e => isInvokeFor e k)) = [] := by
        simp [isInvokeFor]
      rw [hf, List.append_nil]
      exact i7 k
  | ret tid k0 r0 =>
    simp only [okEvent] at hok
    have hpub : ∃ t', CEvent.publish t' k0 r0 ∈ past := by
      obtain ⟨x, hx, hfx⟩ := List.any_eq_true.mp hok
      cases x with
      | publish t k1 r1 =>
        have : k1 = k0 ∧ r1 = r0 := by simpa [isPublishKR] using hfx
        obtain ⟨hk, hr⟩ := this
        subst hk
        subst hr
        exact ⟨t, hx⟩
      | install t k1 => simp [isPublishKR] at hfx
      | invoke t k1 => simp [isPublishKR] at hfx
      | ret t k1 r1 => simp [isPublishKR] at hfx
    refine ⟨?_, ?_, ?_, ?_, ?_, ?_, ?_⟩
    · intro k t t' h1 h2
      rcases mem_append_singleton.mp h1 with h1' | h1'
      · rcases mem_append_singleton.mp h2 with h2' | h2'
        · exact i1 k t t' h1' h2'
        · exact absurd h2' (by simp)
      · exact absurd h1' (by simp)
    · intro k t h
      rcases mem_append_singleton.mp h with h' | h'
      · exact mem_append_singleton.mpr (Or.inl (i2 k t h'))
      · exact absurd h' (by simp)
    · intro k t r h
      rcases mem_append_singleton.mp h with h' | h'
      · exact mem_append_singleton.mpr (Or.inl (i3 k t r h'))
      · exact absurd h' (by simp)
    · intro k t r h
      rcases mem_append_singleton.mp h with h' | h'
      · obtain ⟨t', ht'⟩ := i4 k t r h'
        exact ⟨t', mem_append_singleton.mpr (Or.inl ht')⟩
      · obtain ⟨ht, hk, hr⟩ := CEvent.ret.inj h'
        subst hk
        subst hr
        obtain ⟨t', ht'⟩ := hpub
        exact ⟨t', mem_append_singleton.mpr (Or.inl ht')⟩
    · intro k t t' r r' h1 h2
      rcases mem_append_singleton.mp h1 with h1' | h1'
      · rcases mem_append_singleton.mp h2 with h2' | h2'
        · exact i5 k t t' r r' h1' h2'
        · exact absurd h2' (by simp)
      · exact absurd h1' (by simp)
    · intro k t t' h1 h2
      rcases mem_append_singleton.mp h1 with h1' | h1'
      · rcases mem_append_singleton.mp h2 with h2' | h2'
        · exact i6 k t t' h1' h2'
        · exact absurd h2' (by simp)
      · exact absurd h1' (by simp)
    · intro k
      rw [List.filter_append]
      have hf : ([CEvent.ret tid k0 r0].filter (fun e => isInvokeFor e k)) = [] := by
        simp [isInvokeFor]
      rw [hf, List.append_nil]
      exact i7 k

theorem wfTraceAux_inv :
    ∀ (rest past : List CEvent), wfTraceAux past rest = true → TraceInv past →
      TraceInv (past ++ rest) := by
  intro rest
  induction rest with
  | nil => intro past _ hI; simpa using hI
  | cons e rest ih =>
    intro past h hI
    rw [wfTraceAux] at h
    rw [Bool.and_eq_true] at h
    obtain ⟨h1, h2⟩ := h
    have := ih (past ++ [e]) h2 (traceInv_step hI h1)
    simpa using this

/-- C3: in every well-formed trace of the single-flight cache protocol,
the loader is invoked at most once for each key, no matter how many
threads race on it, and all values returned for the key equal the single
published result. -/
theorem C3_single_flight (t : List CEvent) (hwf : wfTrace t = true) (k : String) :
    (t.filter (fun e => isInvokeFor e k)).length ≤ 1 ∧
    (∀ t1 t2 r r', CEvent.ret t1 k r ∈ t → CEvent.ret t2 k r' ∈ t → r = r') := by
  have hInv : TraceInv t := by
    have h := wfTraceAux_inv t [] hwf traceInv_nil
    simpa using h
  obtain ⟨_, _, _, i4, i5, _, i7⟩ := hInv
  refine ⟨i7 k, ?_⟩
  intro t1 t2 r r' h1 h2
  obtain ⟨p1, hp1⟩ := i4 k t1 r h1
  obtain ⟨p2, hp2⟩ := i4 k t2 r' h2
  exact (i5 k p1 p2 r r' hp1 hp2).2

theorem C3_single_flight_witness :
    (demoTrace.filter (fun e => isInvokeFor e "a")).length ≤ 1 ∧
    (∀ t1 t2 r r', CEvent.ret t1 "a" r ∈ demoTrace → CEvent.ret t2 "a" r' ∈ demoTrace →
      r = r') :=
  C3_single_flight demoTrace (by decide) "a"

end walk

namespace GoPath

theorem getLast?_mem' {α : Type} : ∀ {l : List α} {a : α}, l.getLast? = some a → a ∈ l := by
  intro l
  induction l with
  | nil => intro a h; simp at h
  | cons b l ih =>
    intro a h
    cases l with
    | nil =>
      simp at h
      subst h
      exact List.mem_cons_self _ _
    | cons c l2 =>
      rw [List.getLast?_cons_cons] at h
      exact List.mem_cons_of_mem b (ih h)

theorem cleanPush_valid {rooted : Bool} {out : List (List Char)} {seg : List Char}
    (h : validSegL seg) : cleanPush rooted out seg = out ++ [seg] := by
  obtain ⟨h1, _, h3, h4⟩ := h
  unfold cleanPush
  rw [if_neg (not_or.mpr ⟨h1, h3⟩), if_neg h4]

theorem foldl_cleanPush_valid (rooted : Bool) :
    ∀ (segs out : List (List Char)), (∀ seg ∈ segs, validSegL seg) →
      segs.foldl (cleanPush rooted) out = out ++ segs := by
  intro segs
  induction segs with
  | nil => intro out _; simp
  | cons seg rest ih =>
    intro out hall
    rw [List.foldl_cons, cleanPush_valid (hall seg (List.mem_cons_self _ _)),
      ih (out ++ [seg]) (fun s hs => hall s (List.mem_cons_of_mem _ hs)), List.append_assoc]
    rfl

theorem head_ne_slash {l : List Char} (hne : l ≠ [])
    (hval : ∀ seg ∈ splitChar '/' l, validSegL seg) : (l.head? == some '/') = false := by
  cases l with
  | nil => exact absurd rfl hne
  | cons c rest =>
    by_cases hc : c = '/'
    · subst hc
      have hmem : ([] : List Char) ∈ splitChar '/' ('/' :: rest) := by
        rw [splitChar, if_pos rfl]
        exact List.mem_cons_self _ _
      exact absurd rfl (hval [] hmem).1
    · simp [hc]

theorem pathCleanL_clean {l : List Char} (hne : l ≠ [])
    (hval : ∀ seg ∈ splitChar '/' l, validSegL seg) : pathCleanL l = l := by
  unfold pathCleanL
  rw [head_ne_slash hne hval]
  simp only [Bool.false_eq_true, if_false]
  rw [foldl_cleanPush_valid false (splitChar '/' l) [] hval]
  simp only [List.nil_append]
  rw [if_neg (splitChar_ne_nil '/' l)]
  exact joinChar_splitChar '/' l

theorem dropWhile_all {p : Char → Bool} {l : List Char} (h : ∀ c ∈ l, p c = true) :
    l.dropWhile p = [] := List.dropWhile_eq_nil_iff.mpr h

theorem dirPartL_append {a b : List Char} (hb : '/' ∉ b) :
    dirPartL (a ++ '/' :: b) = a ++ ['/'] := by
  unfold dirPartL
  rw [List.reverse_append, List.reverse_cons, List.append_assoc]
  have hb' : b.reverse.dropWhile (fun c => !(c = '/')) = [] := by
    apply dropWhile_all
    intro c hc
    have : c ≠ '/' := fun he => hb (he ▸ List.mem_reverse.mp hc)
    simp [this]
  rw [List.dropWhile_append, hb']
  simp only [List.isEmpty_nil, if_true]
  have : (['/'] ++ a.reverse).dropWhile (fun c => !(c = '/')) = '/' :: a.reverse := by
    rw [List.singleton_append, List.dropWhile_cons]
    simp
  rw [this]
  simp

theorem dirPartL_no_slash {l : List Char} (h : '/' ∉ l) : dirPartL l = [] := by
  unfold dirPartL
  have : l.reverse.dropWhile (fun c => !(c = '/')) = [] := by
    apply dropWhile_all
    intro c hc
    have : c ≠ '/' := fun he => h (he ▸ List.mem_reverse.mp hc)
    simp [this]
  rw [this]
  rfl

theorem pathCleanL_trailing {l : List Char} (hne : l ≠ [])
    (hval : ∀ seg ∈ splitChar '/' l, validSegL seg) : pathCleanL (l ++ ['/']) = l := by
  unfold pathCleanL
  have hsplit : splitChar '/' (l ++ ['/']) = splitChar '/' l ++ [[]] := by
    have h2 := splitChar_append '/' [] l
    simpa [splitChar] using h2
  have hhead : ((l ++ ['/']).head? == some '/') = false := by
    cases l with
    | nil => exact absurd rfl hne
    | cons c rest =>
      have h3 := head_ne_slash hne hval
      simpa using h3
  rw [hsplit, hhead]
  simp only [Bool.false_eq_true, if_false]
  rw [List.foldl_append, foldl_cleanPush_valid false (splitChar '/' l) [] hval]
  have hskip : cleanPush false (splitChar '/' l) [] = splitChar '/' l := by
    unfold cleanPush
    rw [if_pos (Or.inl rfl)]
  simp only [List.foldl_cons, List.foldl_nil, List.nil_append, hskip]
  rw [if_neg (splitChar_ne_nil '/' l)]
  exact joinChar_splitChar '/' l

theorem joinChar_append_singleton (sep : Char) :
    ∀ (segs : List (List Char)) (t : List Char), segs ≠ [] →
      joinChar sep (segs ++ [t]) = joinChar sep segs ++ sep :: t := by
  intro segs
  induction segs with
  | nil => intro t h; exact absurd rfl h
  | cons s ss ih =>
    intro t _
    cases ss with
    | nil => rfl
    | cons s2 ss2 =>
      calc joinChar sep ((s :: s2 :: ss2) ++ [t])
          = joinChar sep (s :: s2 :: (ss2 ++ [t])) := by simp
        _ = s ++ sep :: joinChar sep (s2 :: (ss2 ++ [t])) :=
            joinChar_cons_cons sep s s2 (ss2 ++ [t])
        _ = s ++ sep :: (joinChar sep (s2 :: ss2) ++ sep :: t) :=
            congrArg (fun x => s ++ sep :: x) (ih t (List.cons_ne_nil _ _))
        _ = (s ++ sep :: joinChar sep (s2 :: ss2)) ++ sep :: t := by simp

end GoPath

namespace walk

open GoPath

theorem charContains_iff {l : List Char} {c : Char} : l.contains c = true ↔ c ∈ l :=
  List.elem_iff

theorem charContains_false_iff {l : List Char} {c : Char} :
    l.contains c = false ↔ c ∉ l := by
  constructor
  · intro h hm
    rw [charContains_iff.mpr hm] at h
    exact absurd h (by simp)
  · intro h
    cases hc : l.contains c
    · rfl
    · exact absurd (charContains_iff.mp hc) h

theorem validSeg_iff {s : String} : validSeg s = true ↔ validSegL s.data := by
  unfold validSeg validSegL
  simp only [Bool.and_eq_true, Bool.not_eq_true', decide_eq_false_iff_not,
    charContains_false_iff]
  tauto

theorem cleanRel_iff {s : String} : cleanRel s = true ↔
    (s.data ≠ [] ∧ ∀ seg ∈ splitChar '/' s.data, validSegL seg) := by
  unfold cleanRel
  simp only [Bool.and_eq_true, Bool.not_eq_true', decide_eq_false_iff_not,
    List.all_eq_true]
  constructor
  · rintro ⟨h1, h2⟩
    exact ⟨h1, fun seg hseg => validSeg_iff.mp (h2 seg hseg)⟩
  · rintro ⟨h1, h2⟩
    exact ⟨h1, fun seg hseg => validSeg_iff.mpr (h2 seg hseg)⟩

theorem pathClean_clean {s : String} (h : cleanRel s = true) : pathClean s = s := by
  obtain ⟨h1, h2⟩ := cleanRel_iff.mp h
  exact String.ext (pathCleanL_clean h1 h2)

theorem cleanRel_single {s : String} (h : validSeg s = true) : cleanRel s = true := by
  have hv := validSeg_iff.mp h
  rw [cleanRel_iff]
  refine ⟨hv.1, ?_⟩
  rw [splitChar_no_sep '/' s.data hv.2.1]
  intro seg hseg
  rw [List.mem_singleton] at hseg
  subst hseg
  exact hv

theorem cleanRel_ne_empty {s : String} (h : cleanRel s = true) : s ≠ "" := by
  intro he
  subst he
  exact absurd h (by decide)

theorem cleanRel_ne_dot {s : String} (h : cleanRel s = true) : s ≠ "." := by
  intro he
  subst he
  exact absurd h (by decide)

theorem pathJoin_parent {rel s : String} (hrel : rel = "" ∨ cleanRel rel = true)
    (hs : validSeg s = true) :
    cleanRel (pathJoin rel s) = true ∧ parentRelOf (pathJoin rel s) = rel := by
  have hv := validSeg_iff.mp hs
  have hsne : s ≠ "" := by
    intro he
    subst he
    exact hv.1 rfl
  cases hrel with
  | inl hroot =>
    subst hroot
    have hj : pathJoin "" s = s := by
      unfold pathJoin
      rw [if_pos rfl, if_neg hsne]
      exact pathClean_clean (cleanRel_single hs)
    rw [hj]
    refine ⟨cleanRel_single hs, ?_⟩
    unfold parentRelOf pathDir
    rw [dirPartL_no_slash hv.2.1]
    rfl
  | inr hclean =>
    obtain ⟨hd1, hd2⟩ := cleanRel_iff.mp hclean
    have hrelne : rel ≠ "" := cleanRel_ne_empty hclean
    have hsplit : splitChar '/' (rel.data ++ '/' :: s.data)
        = splitChar '/' rel.data ++ [s.data] := by
      rw [splitChar_append, splitChar_no_sep '/' s.data hv.2.1]
    have hcleanJ : cleanRel (String.mk (rel.data ++ '/' :: s.data)) = true := by
      rw [cleanRel_iff]
      refine ⟨by simp, ?_⟩
      show ∀ seg ∈ splitChar '/' (rel.data ++ '/' :: s.data), validSegL seg
      rw [hsplit]
      intro seg hseg
      rcases List.mem_append.mp hseg with hm | hm
      · exact hd2 seg hm
      · rw [List.mem_singleton] at hm
        subst hm
        exact hv
    have hj : pathJoin rel s = String.mk (rel.data ++ '/' :: s.data) := by
      unfold pathJoin
      rw [if_neg hrelne, if_neg hsne]
      exact pathClean_clean hcleanJ
    rw [hj]
    refine ⟨hcleanJ, ?_⟩
    unfold parentRelOf pathDir
    show (if pathClean ⟨dirPartL (rel.data ++ '/' :: s.data)⟩ = "." then ""
      else pathClean ⟨dirPartL (rel.data ++ '/' :: s.data)⟩) = rel
    rw [dirPartL_append hv.2.1]
    have hposix : pathClean (String.mk (rel.data ++ ['/'])) = rel := by
      unfold pathClean
      exact String.ext (pathCleanL_trailing hd1 hd2)
    rw [hposix, if_neg (cleanRel_ne_dot hclean)]

end walk

namespace walk

open GoPath

theorem ancestorsAux_no_slash :
    ∀ (l before : List Char), '/' ∉ l → ancestorsAux before l = [] := by
  intro l
  induction l with
  | nil => intro before _; rfl
  | cons c rest ih =>
    intro before h
    have hc : ¬(c = '/') := fun he => h (he ▸ List.mem_cons_self _ _)
    rw [ancestorsAux, if_neg hc]
    exact ih _ (fun hm => h (List.mem_cons_of_mem _ hm))

theorem ancestorsAux_through :
    ∀ (a before b : List Char), '/' ∉ a →
      ancestorsAux before (a ++ '/' :: b)
        = String.mk (before ++ a) :: ancestorsAux (before ++ a ++ ['/']) b := by
  intro a
  induction a with
  | nil =>
    intro before b _
    rw [List.nil_append, ancestorsAux, if_pos rfl]
    simp
  | cons c rest ih =>
    intro before b h
    have hc : ¬(c = '/') := fun he => h (he ▸ List.mem_cons_self _ _)
    rw [List.cons_append, ancestorsAux, if_neg hc]
    rw [ih (before ++ [c]) b (fun hm => h (List.mem_cons_of_mem _ hm))]
    simp [List.append_assoc]

theorem ancestorsAux_join :
    ∀ (segs : List (List Char)) (before : List Char), segs ≠ [] →
      (∀ seg ∈ segs, '/' ∉ seg) →
      ancestorsAux before (joinChar '/' segs)
        = (ancestorsSegs segs).map (fun t => String.mk (before ++ t)) := by
  intro segs
  induction segs with
  | nil => intro before h; exact absurd rfl h
  | cons s ss ih =>
    intro before _ hall
    cases ss with
    | nil =>
      rw [show joinChar '/' [s] = s from rfl]
      rw [ancestorsAux_no_slash s before (hall s (List.mem_cons_self _ _))]
      rfl
    | cons s2 ss2 =>
      rw [joinChar_cons_cons]
      rw [ancestorsAux_through s before _ (hall s (List.mem_cons_self _ _))]
      rw [ih (before ++ s ++ ['/']) (List.cons_ne_nil _ _)
        (fun seg hm => hall seg (List.mem_cons_of_mem _ hm))]
      rw [show ancestorsSegs (s :: s2 :: ss2)
        = s :: (ancestorsSegs (s2 :: ss2)).map (fun t => s ++ '/' :: t) from rfl]
      rw [List.map_cons, List.map_map]
      congr 1
      apply List.map_congr_left
      intro t _
      show String.mk (before ++ s ++ ['/'] ++ t) = String.mk (before ++ (s ++ '/' :: t))
      congr 1
      simp

theorem ancestors_eq_spec {dir : String} (h : cleanRel dir = true) :
    ancestors dir = ancestorsSpec dir := by
  obtain ⟨_, h2⟩ := cleanRel_iff.mp h
  unfold ancestors ancestorsSpec
  conv_lhs => rw [(joinChar_splitChar '/' dir.data).symm]
  rw [ancestorsAux_join (splitChar '/' dir.data) [] (splitChar_ne_nil '/' _)
    (fun seg hm => (h2 seg hm).2.1)]
  simp

theorem getLast?_cons_ne_none : ∀ (l : List String) (c : String), (c :: l).getLast? ≠ none := by
  intro l
  induction l with
  | nil => intro c h; simp at h
  | cons d l2 ih =>
    intro c h
    rw [List.getLast?_cons_cons] at h
    exact ih d h

theorem getLastD_cons {b : String} {l : List String} {p0 : String} :
    ((b :: l).getLast?).getD p0 = (l.getLast?).getD b := by
  cases l with
  | nil => rfl
  | cons c l2 =>
    cases hl : (c :: l2).getLast? with
    | none => exact absurd hl (getLast?_cons_ne_none l2 c)
    | some x =>
      rw [List.getLast?_cons_cons, hl]
      rfl

theorem parentChain_concat :
    ∀ (l : List String) (p0 a : String),
      parentChain p0 (l ++ [a]) ↔
        (parentChain p0 l ∧ cleanRel a = true ∧ parentRelOf a = (l.getLast?).getD p0) := by
  intro l
  induction l with
  | nil =>
    intro p0 a
    show (cleanRel a = true ∧ parentRelOf a = p0 ∧ True) ↔ _
    simp [parentChain]
  | cons b l ih =>
    intro p0 a
    rw [List.cons_append]
    show (cleanRel b = true ∧ parentRelOf b = p0 ∧ parentChain b (l ++ [a])) ↔ _
    rw [ih b a]
    rw [show parentChain p0 (b :: l)
      = (cleanRel b = true ∧ parentRelOf b = p0 ∧ parentChain b l) from rfl]
    rw [getLastD_cons]
    tauto

theorem parentChain_take :
    ∀ (l1 : List String) (l2 : List String) (p0 : String),
      parentChain p0 (l1 ++ l2) → parentChain p0 l1 := by
  intro l1
  induction l1 with
  | nil => intro l2 p0 _; trivial
  | cons b l ih =>
    intro l2 p0 h
    obtain ⟨h1, h2, h3⟩ := h
    exact ⟨h1, h2, ih l2 b h3⟩

theorem ancestorsSegs_concat :
    ∀ (segs : List (List Char)) (t : List Char), segs ≠ [] →
      ancestorsSegs (segs ++ [t]) = ancestorsSegs segs ++ [joinChar '/' segs] := by
  intro segs
  induction segs with
  | nil => intro t h; exact absurd rfl h
  | cons s ss ih =>
    intro t _
    cases ss with
    | nil => rfl
    | cons s2 ss2 =>
      rw [show ancestorsSegs ((s :: s2 :: ss2) ++ [t])
        = s :: (ancestorsSegs ((s2 :: ss2) ++ [t])).map (fun u => s ++ '/' :: u) from rfl]
      rw [ih t (List.cons_ne_nil _ _)]
      rw [List.map_append]
      rw [show ancestorsSegs (s :: s2 :: ss2)
        = s :: (ancestorsSegs (s2 :: ss2)).map (fun u => s ++ '/' :: u) from rfl]
      rw [joinChar_cons_cons]
      simp

theorem cleanRel_join {segs : List (List Char)} (hne : segs ≠ [])
    (hval : ∀ seg ∈ segs, validSegL seg) :
    cleanRel (String.mk (joinChar '/' segs)) = true := by
  rw [cleanRel_iff]
  constructor
  · show joinChar '/' segs ≠ []
    cases segs with
    | nil => exact absurd rfl hne
    | cons s ss =>
      have hs : s ≠ [] := (hval s (List.mem_cons_self _ _)).1
      cases ss with
      | nil => exact hs
      | cons s2 ss2 =>
        rw [joinChar_cons_cons]
        intro hcon
        rw [List.append_eq_nil] at hcon
        exact absurd hcon.2 (by simp)
  · show ∀ seg ∈ splitChar '/' (joinChar '/' segs), validSegL seg
    rw [splitChar_joinChar '/' segs hne (fun seg hm => (hval seg hm).2.1)]
    exact hval

theorem cleanRel_append {rel s : String} (hrel : cleanRel rel = true)
    (hs : validSeg s = true) :
    cleanRel (String.mk (rel.data ++ '/' :: s.data)) = true := by
  obtain ⟨hd1, hd2⟩ := cleanRel_iff.mp hrel
  have hv := validSeg_iff.mp hs
  rw [cleanRel_iff]
  refine ⟨by simp, ?_⟩
  show ∀ seg ∈ splitChar '/' (rel.data ++ '/' :: s.data), validSegL seg
  rw [splitChar_append, splitChar_no_sep '/' s.data hv.2.1]
  intro seg hseg
  rcases List.mem_append.mp hseg with hm | hm
  · exact hd2 seg hm
  · rw [List.mem_singleton] at hm
    subst hm
    exact hv

theorem parentRelOf_append {rel s : String} (hrel : cleanRel rel = true)
    (hs : validSeg s = true) :
    parentRelOf (String.mk (rel.data ++ '/' :: s.data)) = rel := by
  obtain ⟨hd1, hd2⟩ := cleanRel_iff.mp hrel
  have hv := validSeg_iff.mp hs
  unfold parentRelOf pathDir
  show (if pathClean ⟨dirPartL (rel.data ++ '/' :: s.data)⟩ = "." then ""
    else pathClean ⟨dirPartL (rel.data ++ '/' :: s.data)⟩) = rel
  rw [dirPartL_append hv.2.1]
  have hposix : pathClean (String.mk (rel.data ++ ['/'])) = rel := by
    unfold pathClean
    exact String.ext (pathCleanL_trailing hd1 hd2)
  rw [hposix, if_neg (cleanRel_ne_dot hrel)]

theorem parentRelOf_single {s : String} (hs : validSeg s = true) :
    parentRelOf s = "" := by
  have hv := validSeg_iff.mp hs
  unfold parentRelOf pathDir
  rw [dirPartL_no_slash hv.2.1]
  rfl

theorem chainSegs :
    ∀ (segs : List (List Char)), segs ≠ [] → (∀ seg ∈ segs, validSegL seg) →
      parentChain ""
        ((ancestorsSegs segs).map String.mk ++ [String.mk (joinChar '/' segs)]) := by
  intro segs
  induction segs using List.reverseRecOn with
  | nil => intro h; exact absurd rfl h
  | append_singleton segs t ih =>
    intro _ hval
    by_cases hsegs : segs = []
    · subst hsegs
      have hvt : validSegL t := hval t (by simp)
      show parentChain "" [String.mk t]
      exact ⟨cleanRel_single (validSeg_iff.mpr hvt),
        parentRelOf_single (validSeg_iff.mpr hvt), trivial⟩
    · have ih2 := ih hsegs (fun seg hm => hval seg (List.mem_append_left _ hm))
      have hvt : validSegL t := hval t (List.mem_append_right _ (by simp))
      have hcj : cleanRel (String.mk (joinChar '/' segs)) = true :=
        cleanRel_join hsegs (fun seg hm => hval seg (List.mem_append_left _ hm))
      rw [ancestorsSegs_concat segs t hsegs, List.map_append,
        joinChar_append_singleton '/' segs t hsegs]
      simp only [List.map_cons, List.map_nil]
      rw [parentChain_concat]
      refine ⟨ih2, ?_, ?_⟩
      · exact cleanRel_append hcj (validSeg_iff.mpr hvt)
      · rw [List.getLast?_concat]
        exact parentRelOf_append hcj (validSeg_iff.mpr hvt)

theorem parentChain_ancestors {dir : String} (h : cleanRel dir = true) :
    parentChain "" (ancestorsSpec dir ++ [dir]) := by
  obtain ⟨_, h2⟩ := cleanRel_iff.mp h
  have hc := chainSegs (splitChar '/' dir.data) (splitChar_ne_nil _ _) h2
  rw [joinChar_splitChar '/' dir.data] at hc
  exact hc

theorem parentRelOf_mem_ancestors {dir : String} (h : cleanRel dir = true) :
    parentRelOf dir = "" ∨ parentRelOf dir ∈ ancestorsSpec dir := by
  have hc := parentChain_ancestors h
  rw [parentChain_concat] at hc
  obtain ⟨_, _, hp⟩ := hc
  cases hl : (ancestorsSpec dir).getLast? with
  | none =>
    rw [hl] at hp
    exact Or.inl hp
  | some x =>
    rw [hl] at hp
    exact Or.inr (hp ▸ getLast?_mem' hl)

end walk

namespace walk

open GoPath

theorem cacheFind_mem : ∀ {c : CacheState} {k : String} {v},
    cacheFind c k = some v → (k, v) ∈ c := by
  intro c
  induction c with
  | nil => intro k v h; simp [cacheFind] at h
  | cons kv rest ih =>
    intro k v h
    rw [cacheFind] at h
    by_cases hk : kv.1 = k
    · rw [if_pos hk] at h
      injection h with h
      subst h
      subst hk
      have : (kv.1, kv.2) = kv := rfl
      rw [this]
      exact List.mem_cons_self _ _
    · rw [if_neg hk] at h
      exact List.mem_cons_of_mem _ (ih h)

theorem cacheFind_ne_none_append {c : CacheState} {k : String}
    (h : cacheFind c k ≠ none) (xs : CacheState) : cacheFind (c ++ xs) k ≠ none := by
  cases hf : cacheFind c k with
  | none => exact absurd hf h
  | some v =>
    rw [cacheFind_append_of_some hf xs]
    simp

theorem maybeResolveSymlink_name (w : walker) (wc : walkConfig) (entryRel : String)
    (e : FsEntry) : (maybeResolveSymlink w wc entryRel e).name = e.name := by
  unfold maybeResolveSymlink
  by_cases h : e.isSymlink <;> simp [h]

end walk

namespace walk

open GoPath

theorem classifyStep_fst (w : walker) (cfg : walkConfig) (rel : String)
    (acc : List String × List String) (e : FsEntry) :
    (classifyStep w cfg rel acc e).1 = acc.1 ∨
    (classifyStep w cfg rel acc e).1 = acc.1 ++ [e.name] := by
  unfold classifyStep
  simp only [maybeResolveSymlink_name]
  split
  · right
    rfl
  · split
    · left
      rfl
    · left
      rfl

theorem classify_fst_names (w : walker) (cfg : walkConfig) (rel : String) :
    ∀ (entries : List FsEntry) (acc : List String × List String),
      ∀ s ∈ (entries.foldl (classifyStep w cfg rel) acc).1,
        s ∈ acc.1 ∨ ∃ e ∈ entries, s = e.name := by
  intro entries
  induction entries with
  | nil => intro acc s hs; exact Or.inl hs
  | cons e es ih =>
    intro acc s hs
    rw [List.foldl_cons] at hs
    rcases ih (classifyStep w cfg rel acc e) s hs with hmem | ⟨e2, he2, hname⟩
    · rcases classifyStep_fst w cfg rel acc e with h | h
      · rw [h] at hmem
        exact Or.inl hmem
      · rw [h] at hmem
        rcases List.mem_append.mp hmem with h2 | h2
        · exact Or.inl h2
        · exact Or.inr ⟨e, List.mem_cons_self _ _, List.mem_singleton.mp h2⟩
    · exact Or.inr ⟨e2, List.mem_cons_of_mem _ he2, hname⟩

theorem loadDirInfoOld_subdirs {w : walker} {pc : walkConfig} {rel : String}
    {info : dirInfo} {errs : List String}
    (h : loadDirInfoOld w pc rel = .ok (info, errs)) :
    ∀ s ∈ info.subdirs, ∃ e ∈ entriesOf w rel, s = e.name := by
  unfold loadDirInfoOld at h
  cases hc : Configure w.validPat pc rel (w.loadBuildFile pc rel (entriesOf w rel)).1 with
  | error e => simp [hc] at h
  | ok config =>
    simp only [hc, Except.ok.injEq, Prod.mk.injEq] at h
    obtain ⟨hi, _⟩ := h
    subst hi
    intro s hs
    simp only at hs
    have hgen := classify_fst_names w config rel
      (if isExcludedDir w config rel = true then [] else entriesOf w rel) ([], []) s
    rw [show classifyEntries w config rel
        (if isExcludedDir w config rel = true then [] else entriesOf w rel)
      = (if isExcludedDir w config rel = true then [] else entriesOf w rel).foldl
          (classifyStep w config rel) ([], []) from rfl] at hs
    rcases hgen hs with hmem | ⟨e, he, hname⟩
    · exact absurd hmem (List.not_mem_nil s)
    · refine ⟨e, ?_, hname⟩
      by_cases hex : isExcludedDir w config rel = true
      · rw [if_pos hex] at he
        exact absurd he (List.not_mem_nil e)
      · rw [if_neg hex] at he
        exact he

theorem cacheGetC_not_parentNotLoaded {w : walker} {c : CacheState} {rel : String}
    (hparent : rel = "" ∨ cacheFind c (parentRelOf rel) ≠ none) :
    ∀ a, cacheGetC w c rel ≠ .error (LoadAbort.parentNotLoaded a) := by
  intro a
  unfold cacheGetC
  cases hf : cacheFind c rel with
  | some r => simp
  | none =>
    simp only [loadDirInfoC, getLoaded]
    by_cases hrel : rel = ""
    · simp only [hrel, if_pos rfl]
      cases hl : loadDirInfoOld w w.rootConfig "" <;> simp [hl]
    · have hpar : cacheFind c (parentRelOf rel) ≠ none := hparent.resolve_left hrel
      rw [if_neg hrel]
      cases hg : cacheFind c (parentRelOf rel) with
      | none => exact absurd hg hpar
      | some pr =>
        simp only [hg]
        cases hl : loadDirInfoOld w pr.1.config rel <;> simp [hl]

theorem cacheGetC_ok_cases {w : walker} {c : CacheState} {rel : String}
    {r : dirInfo × List String} {c' : CacheState}
    (h : cacheGetC w c rel = .ok (r, c')) :
    (cacheFind c rel = some r ∧ c' = c) ∨
    (cacheFind c rel = none ∧ c' = c ++ [(rel, r)] ∧
      ∃ pc2, loadDirInfoOld w pc2 rel = .ok r) := by
  unfold cacheGetC at h
  cases hf : cacheFind c rel with
  | some r2 =>
    rw [hf] at h
    simp only [Except.ok.injEq, Prod.mk.injEq] at h
    obtain ⟨h1, h2⟩ := h
    subst h1
    subst h2
    exact Or.inl ⟨rfl, rfl⟩
  | none =>
    rw [hf] at h
    cases hl : loadDirInfoC w c rel with
    | error a =>
      rw [hl] at h
      simp at h
    | ok r2 =>
      rw [hl] at h
      simp only [Except.ok.injEq, Prod.mk.injEq] at h
      obtain ⟨h1, h2⟩ := h
      subst h1
      subst h2
      refine Or.inr ⟨rfl, rfl, ?_⟩
      simp only [loadDirInfoC, getLoaded] at hl
      by_cases hrel : rel = ""
      · rw [if_pos hrel] at hl
        have hl2 : (match loadDirInfoOld w w.rootConfig rel with
            | .ok r => (Except.ok r : Except LoadAbort (dirInfo × List String))
            | .error e => Except.error (LoadAbort.fatalConfig e)) = Except.ok r2 := hl
        cases hlo : loadDirInfoOld w w.rootConfig rel with
        | ok r3 =>
          rw [hlo] at hl2
          simp at hl2
          exact ⟨w.rootConfig, by rw [hlo, hl2]⟩
        | error e =>
          rw [hlo] at hl2
          simp at hl2
      · rw [if_neg hrel] at hl
        cases hg : cacheFind c (parentRelOf rel) with
        | none =>
          rw [hg] at hl
          simp at hl
        | some pr =>
          rw [hg] at hl
          have hl2 : (match loadDirInfoOld w pr.1.config rel with
              | .ok r => (Except.ok r : Except LoadAbort (dirInfo × List String))
              | .error e => Except.error (LoadAbort.fatalConfig e)) = Except.ok r2 := hl
          cases hlo : loadDirInfoOld w pr.1.config rel with
          | ok r3 =>
            rw [hlo] at hl2
            simp at hl2
            exact ⟨pr.1.config, by rw [hlo, hl2]⟩
          | error e =>
            rw [hlo] at hl2
            simp at hl2

theorem cacheGetC_inv {w : walker} {c : CacheState} {rel : String}
    {r : dirInfo × List String} {c' : CacheState}
    (hw : walkerNamesOk w) (hInv : CacheInv c)
    (hclean : rel = "" ∨ cleanRel rel = true)
    (hparent : rel = "" ∨ cacheFind c (parentRelOf rel) ≠ none)
    (h : cacheGetC w c rel = .ok (r, c')) :
    CacheInv c' ∧ cacheFind c' rel = some r ∧
    (∀ k v, cacheFind c k = some v → cacheFind c' k = some v) := by
  rcases cacheGetC_ok_cases h with ⟨hf, hc⟩ | ⟨hf, hc, pc2, hload⟩
  · subst hc
    exact ⟨hInv, hf, fun k v hv => hv⟩
  · subst hc
    obtain ⟨I1, I2, I3⟩ := hInv
    refine ⟨⟨?_, ?_, ?_⟩, cacheFind_append_self hf r,
      fun k v hv => cacheFind_append_of_some hv _⟩
    · intro kv hkv
      rcases List.mem_append.mp hkv with hm | hm
      · exact I1 kv hm
      · rw [List.mem_singleton] at hm
        subst hm
        exact hclean
    · intro kv hkv hne
      rcases List.mem_append.mp hkv with hm | hm
      · exact cacheFind_ne_none_append (I2 kv hm hne) _
      · rw [List.mem_singleton] at hm
        subst hm
        have hpar : cacheFind c (parentRelOf rel) ≠ none := by
          rcases hparent with hroot | hp
          · exact absurd hroot hne
          · exact hp
        exact cacheFind_ne_none_append hpar _
    · intro kv hkv s hs
      rcases List.mem_append.mp hkv with hm | hm
      · exact I3 kv hm s hs
      · rw [List.mem_singleton] at hm
        subst hm
        have hload2 : loadDirInfoOld w pc2 rel = .ok (r.1, r.2) := by
          rw [hload]
        obtain ⟨e, he, hname⟩ := loadDirInfoOld_subdirs hload2 s hs
        subst hname
        exact hw rel e he

end walk

namespace walk

open GoPath

theorem seqVisit_props (w : walker) (hw : walkerNamesOk w) :
    ∀ fuel : Nat, ∀ (c : CacheState) (rel : String), CacheInv c →
      (rel = "" ∨ cleanRel rel = true) →
      (rel = "" ∨ cacheFind c (parentRelOf rel) ≠ none) →
      (∀ a, seqVisit w fuel c rel ≠ .error (LoadAbort.parentNotLoaded a)) ∧
      (∀ c', seqVisit w fuel c rel = .ok c' → CacheInv c' ∧
        ∀ k v, cacheFind c k = some v → cacheFind c' k = some v) := by
  intro fuel
  induction fuel with
  | zero =>
    intro c rel hInv _ _
    constructor
    · intro a h
      simp [seqVisit] at h
    · intro c' h
      simp [seqVisit] at h
      subst h
      exact ⟨hInv, fun k v hv => hv⟩
  | succ fuel ih =>
    have hchildren : ∀ (ss : List String) (c0 : CacheState) (wc : walkConfig) (rel : String),
        CacheInv c0 → (rel = "" ∨ cleanRel rel = true) → cacheFind c0 rel ≠ none →
        (∀ s ∈ ss, validSeg s = true) →
        (∀ a, seqVisitChildren w fuel c0 rel wc ss ≠ .error (LoadAbort.parentNotLoaded a)) ∧
        (∀ c', seqVisitChildren w fuel c0 rel wc ss = .ok c' → CacheInv c' ∧
          ∀ k v, cacheFind c0 k = some v → cacheFind c' k = some v) := by
      intro ss
      induction ss with
      | nil =>
        intro c0 wc rel hInv _ _ _
        constructor
        · intro a h
          simp [seqVisitChildren] at h
        · intro c' h
          simp [seqVisitChildren] at h
          subst h
          exact ⟨hInv, fun k v hv => hv⟩
      | cons s ss ihs =>
        intro c0 wc rel hInv hclean hfind hnames
        have hvs : validSeg s = true := hnames s (List.mem_cons_self _ _)
        have hnames' : ∀ x ∈ ss, validSeg x = true :=
          fun x hx => hnames x (List.mem_cons_of_mem _ hx)
        by_cases hex : isExcludedDir w wc (pathJoin rel s) = true
        · have heq : seqVisitChildren w fuel c0 rel wc (s :: ss)
              = seqVisitChildren w fuel c0 rel wc ss := by
            simp [seqVisitChildren, hex]
          constructor
          · intro a h
            rw [heq] at h
            exact (ihs c0 wc rel hInv hclean hfind hnames').1 a h
          · intro c' h
            rw [heq] at h
            exact (ihs c0 wc rel hInv hclean hfind hnames').2 c' h
        · obtain ⟨hcleanJ, hparJ⟩ := pathJoin_parent hclean hvs
          have hv := ih c0 (pathJoin rel s) hInv (Or.inr hcleanJ)
            (Or.inr (by rw [hparJ]; exact hfind))
          constructor
          · intro a h
            cases hsv : seqVisit w fuel c0 (pathJoin rel s) with
            | error a2 =>
              have heq : seqVisitChildren w fuel c0 rel wc (s :: ss) = .error a2 := by
                simp [seqVisitChildren, hex, hsv]
              rw [heq] at h
              simp at h
              exact hv.1 a (by rw [hsv, h])
            | ok c1 =>
              have heq : seqVisitChildren w fuel c0 rel wc (s :: ss)
                  = seqVisitChildren w fuel c1 rel wc ss := by
                simp [seqVisitChildren, hex, hsv]
              rw [heq] at h
              obtain ⟨hInv1, hmono1⟩ := hv.2 c1 hsv
              have hfind1 : cacheFind c1 rel ≠ none := by
                cases hf0 : cacheFind c0 rel with
                | none => exact absurd hf0 hfind
                | some v =>
                  rw [hmono1 rel v hf0]
                  simp
              exact (ihs c1 wc rel hInv1 hclean hfind1 hnames').1 a h
          · intro c' h
            cases hsv : seqVisit w fuel c0 (pathJoin rel s) with
            | error a2 =>
              have heq : seqVisitChildren w fuel c0 rel wc (s :: ss) = .error a2 := by
                simp [seqVisitChildren, hex, hsv]
              rw [heq] at h
              simp at h
            | ok c1 =>
              have heq : seqVisitChildren w fuel c0 rel wc (s :: ss)
                  = seqVisitChildren w fuel c1 rel wc ss := by
                simp [seqVisitChildren, hex, hsv]
              rw [heq] at h
              obtain ⟨hInv1, hmono1⟩ := hv.2 c1 hsv
              have hfind1 : cacheFind c1 rel ≠ none := by
                cases hf0 : cacheFind c0 rel with
                | none => exact absurd hf0 hfind
                | some v =>
                  rw [hmono1 rel v hf0]
                  simp
              obtain ⟨hInv2, hmono2⟩ := (ihs c1 wc rel hInv1 hclean hfind1 hnames').2 c' h
              exact ⟨hInv2, fun k v hv0 => hmono2 k v (hmono1 k v hv0)⟩
    intro c rel hInv hclean hparent
    constructor
    · intro a h
      cases hg : cacheGetC w c rel with
      | error a2 =>
        have heq : seqVisit w (fuel + 1) c rel = .error a2 := by
          simp [seqVisit, hg]
        rw [heq] at h
        simp at h
        exact cacheGetC_not_parentNotLoaded hparent a (by rw [hg, h])
      | ok rc =>
        obtain ⟨r, c1⟩ := rc
        have heq : seqVisit w (fuel + 1) c rel
            = (if r.2.isEmpty then seqVisitChildren w fuel c1 rel r.1.config r.1.subdirs
               else .ok c1) := by
          simp [seqVisit, hg]
        rw [heq] at h
        obtain ⟨hInv1, hfind1, hmono1⟩ := cacheGetC_inv hw hInv hclean hparent hg
        by_cases herr : r.2.isEmpty
        · rw [if_pos herr] at h
          have hnames : ∀ s ∈ r.1.subdirs, validSeg s = true :=
            hInv1.2.2 (rel, r) (cacheFind_mem hfind1)
          exact (hchildren r.1.subdirs c1 r.1.config rel hInv1 hclean
            (by rw [hfind1]; simp) hnames).1 a h
        · rw [if_neg herr] at h
          simp at h
    · intro c' h
      cases hg : cacheGetC w c rel with
      | error a2 =>
        have heq : seqVisit w (fuel + 1) c rel = .error a2 := by
          simp [seqVisit, hg]
        rw [heq] at h
        simp at h
      | ok rc =>
        obtain ⟨r, c1⟩ := rc
        have heq : seqVisit w (fuel + 1) c rel
            = (if r.2.isEmpty then seqVisitChildren w fuel c1 rel r.1.config r.1.subdirs
               else .ok c1) := by
          simp [seqVisit, hg]
        rw [heq] at h
        obtain ⟨hInv1, hfind1, hmono1⟩ := cacheGetC_inv hw hInv hclean hparent hg
        by_cases herr : r.2.isEmpty
        · rw [if_pos herr] at h
          have hnames : ∀ s ∈ r.1.subdirs, validSeg s = true :=
            hInv1.2.2 (rel, r) (cacheFind_mem hfind1)
          obtain ⟨hInv2, hmono2⟩ := (hchildren r.1.subdirs c1 r.1.config rel hInv1 hclean
            (by rw [hfind1]; simp) hnames).2 c' h
          exact ⟨hInv2, fun k v hv => hmono2 k v (hmono1 k v hv)⟩
        · rw [if_neg herr] at h
          simp at h
          subst h
          exact ⟨hInv1, hmono1⟩

end walk

namespace walk

open GoPath

theorem cacheInvNil : CacheInv [] := by
  refine ⟨?_, ?_, ?_⟩ <;> intro kv hkv <;> exact absurd hkv (List.not_mem_nil _)

theorem cacheGetDrop_props {w : walker} {c : CacheState} {rel : String}
    (hw : walkerNamesOk w) (hInv : CacheInv c)
    (hclean : rel = "" ∨ cleanRel rel = true)
    (hparent : rel = "" ∨ cacheFind c (parentRelOf rel) ≠ none) :
    (∀ a, cacheGetDrop w c rel ≠ .error (LoadAbort.parentNotLoaded a)) ∧
    (∀ c', cacheGetDrop w c rel = .ok c' → CacheInv c' ∧ cacheFind c' rel ≠ none ∧
      (∀ k v, cacheFind c k = some v → cacheFind c' k = some v)) := by
  constructor
  · intro a h
    cases hg : cacheGetC w c rel with
    | ok rc =>
      have heq : cacheGetDrop w c rel = .ok rc.2 := by simp [cacheGetDrop, hg]
      rw [heq] at h
      simp at h
    | error a2 =>
      have heq : cacheGetDrop w c rel = .error a2 := by simp [cacheGetDrop, hg]
      rw [heq] at h
      simp at h
      exact cacheGetC_not_parentNotLoaded hparent a (by rw [hg, h])
  · intro c' h
    cases hg : cacheGetC w c rel with
    | error a2 =>
      have heq : cacheGetDrop w c rel = .error a2 := by simp [cacheGetDrop, hg]
      rw [heq] at h
      simp at h
    | ok rc =>
      obtain ⟨r, c1⟩ := rc
      have heq : cacheGetDrop w c rel = .ok c1 := by simp [cacheGetDrop, hg]
      rw [heq] at h
      simp at h
      subst h
      obtain ⟨hInv1, hf1, hmono1⟩ := cacheGetC_inv hw hInv hclean hparent hg
      exact ⟨hInv1, by rw [hf1]; simp, hmono1⟩

theorem chainFold (w : walker) (hw : walkerNamesOk w) :
    ∀ (l : List String) (p0 : String) (c : CacheState),
      parentChain p0 l → CacheInv c → cacheFind c p0 ≠ none →
      (∀ a, l.foldlM (fun c p => cacheGetDrop w c p) c ≠ .error (LoadAbort.parentNotLoaded a)) ∧
      (∀ c', l.foldlM (fun c p => cacheGetDrop w c p) c = .ok c' →
        CacheInv c' ∧ (∀ p ∈ l, cacheFind c' p ≠ none) ∧
        (∀ k v, cacheFind c k = some v → cacheFind c' k = some v)) := by
  intro l
  induction l with
  | nil =>
    intro p0 c _ hInv _
    constructor
    · intro a h
      simp [List.foldlM, Pure.pure, Except.pure] at h
    · intro c' h
      simp [List.foldlM, Pure.pure, Except.pure] at h
      subst h
      exact ⟨hInv, fun p hp => absurd hp (List.not_mem_nil _), fun k v hv => hv⟩
  | cons b rest ih =>
    intro p0 c hchain hInv hfind
    obtain ⟨hcb, hpb, hchain'⟩ := hchain
    have hparent : b = "" ∨ cacheFind c (parentRelOf b) ≠ none := by
      right
      rw [hpb]
      exact hfind
    have hprops := cacheGetDrop_props hw hInv (Or.inr hcb) hparent
    constructor
    · intro a h
      rw [List.foldlM_cons] at h
      cases hg : cacheGetDrop w c b with
      | error a2 =>
        rw [hg] at h
        simp [Bind.bind, Except.bind] at h
        exact hprops.1 a (by rw [hg, h])
      | ok c1 =>
        rw [hg] at h
        simp [Bind.bind, Except.bind] at h
        obtain ⟨hInv1, hfb1, _⟩ := hprops.2 c1 hg
        exact (ih b c1 hchain' hInv1 hfb1).1 a h
    · intro c' h
      rw [List.foldlM_cons] at h
      cases hg : cacheGetDrop w c b with
      | error a2 =>
        rw [hg] at h
        simp [Bind.bind, Except.bind] at h
      | ok c1 =>
        rw [hg] at h
        simp [Bind.bind, Except.bind] at h
        obtain ⟨hInv1, hfb1, hmono1⟩ := hprops.2 c1 hg
        obtain ⟨hInv2, hall2, hmono2⟩ := (ih b c1 hchain' hInv1 hfb1).2 c' h
        refine ⟨hInv2, ?_, fun k v hv => hmono2 k v (hmono1 k v hv)⟩
        intro p hp
        rcases List.mem_cons.mp hp with h' | h'
        · subst h'
          cases hf1 : cacheFind c1 p with
          | none => exact absurd hf1 hfb1
          | some v =>
            rw [hmono2 p v hf1]
            simp
        · exact hall2 p h'

theorem ancestorPhaseFold (w : walker) (hw : walkerNamesOk w) :
    ∀ (rels : List String) (c : CacheState),
      (∀ r ∈ rels, r = "" ∨ cleanRel r = true) → CacheInv c → cacheFind c "" ≠ none →
      (∀ a, rels.foldlM
          (fun c dir => (ancestors dir).foldlM (fun c p => cacheGetDrop w c p) c) c
          ≠ .error (LoadAbort.parentNotLoaded a)) ∧
      (∀ c', rels.foldlM
          (fun c dir => (ancestors dir).foldlM (fun c p => cacheGetDrop w c p) c) c
          = .ok c' →
        CacheInv c' ∧ cacheFind c' "" ≠ none ∧
        (∀ k v, cacheFind c k = some v → cacheFind c' k = some v) ∧
        (∀ dir ∈ rels, dir = "" ∨ cacheFind c' (parentRelOf dir) ≠ none)) := by
  intro rels
  induction rels with
  | nil =>
    intro c _ hInv hroot
    constructor
    · intro a h
      simp [List.foldlM, Pure.pure, Except.pure] at h
    · intro c' h
      simp [List.foldlM, Pure.pure, Except.pure] at h
      subst h
      exact ⟨hInv, hroot, fun k v hv => hv, fun dir hd => absurd hd (List.not_mem_nil _)⟩
  | cons dir rest ih =>
    intro c hrels hInv hroot
    have hcd : dir = "" ∨ cleanRel dir = true := hrels dir (List.mem_cons_self _ _)
    have hchain : parentChain "" (ancestors dir) := by
      cases hcd with
      | inl h' =>
        subst h'
        have ha : ancestors "" = [] := rfl
        rw [ha]
        exact True.intro
      | inr h' =>
        rw [ancestors_eq_spec h']
        exact parentChain_take _ [dir] _ (parentChain_ancestors h')
    constructor
    · intro a h
      rw [List.foldlM_cons] at h
      cases hg : (ancestors dir).foldlM (fun c p => cacheGetDrop w c p) c with
      | error a2 =>
        rw [hg] at h
        simp [Bind.bind, Except.bind] at h
        exact (chainFold w hw (ancestors dir) "" c hchain hInv hroot).1 a (by rw [hg, h])
      | ok c1 =>
        rw [hg] at h
        simp [Bind.bind, Except.bind] at h
        obtain ⟨hInv1, _, hmono1⟩ := (chainFold w hw (ancestors dir) "" c hchain hInv hroot).2 c1 hg
        have hroot1 : cacheFind c1 "" ≠ none := by
          cases hf : cacheFind c "" with
          | none => exact absurd hf hroot
          | some v =>
            rw [hmono1 _ v hf]
            simp
        exact (ih c1 (fun r hr => hrels r (List.mem_cons_of_mem _ hr)) hInv1 hroot1).1 a h
    · intro c' h
      rw [List.foldlM_cons] at h
      cases hg : (ancestors dir).foldlM (fun c p => cacheGetDrop w c p) c with
      | error a2 =>
        rw [hg] at h
        simp [Bind.bind, Except.bind] at h
      | ok c1 =>
        rw [hg] at h
        simp [Bind.bind, Except.bind] at h
        obtain ⟨hInv1, hall1, hmono1⟩ := (chainFold w hw (ancestors dir) "" c hchain hInv hroot).2 c1 hg
        have hroot1 : cacheFind c1 "" ≠ none := by
          cases hf : cacheFind c "" with
          | none => exact absurd hf hroot
          | some v =>
            rw [hmono1 _ v hf]
            simp
        obtain ⟨hInv2, hroot2, hmono2, hpar2⟩ :=
          (ih c1 (fun r hr => hrels r (List.mem_cons_of_mem _ hr)) hInv1 hroot1).2 c' h
        refine ⟨hInv2, hroot2, fun k v hv => hmono2 k v (hmono1 k v hv), ?_⟩
        intro d hd
        rcases List.mem_cons.mp hd with h' | h'
        · subst h'
          cases hcd with
          | inl he => exact Or.inl he
          | inr hcl =>
            right
            rcases parentRelOf_mem_ancestors hcl with hp | hp
            · rw [hp]
              exact hroot2
            · have hp1 : cacheFind c1 (parentRelOf d) ≠ none := by
                apply hall1
                rw [ancestors_eq_spec hcl]
                exact hp
              cases hf : cacheFind c1 (parentRelOf d) with
              | none => exact absurd hf hp1
              | some v =>
                rw [hmono2 _ v hf]
                simp
        · exact hpar2 d h'

theorem visitPhaseFold (w : walker) (hw : walkerNamesOk w) (fuel : Nat) :
    ∀ (rels : List String) (c : CacheState),
      (∀ r ∈ rels, r = "" ∨ cleanRel r = true) → CacheInv c →
      (∀ dir ∈ rels, dir = "" ∨ cacheFind c (parentRelOf dir) ≠ none) →
      ∀ a, rels.foldlM (fun c dir => seqVisit w fuel c dir) c
        ≠ .error (LoadAbort.parentNotLoaded a) := by
  intro rels
  induction rels with
  | nil =>
    intro c _ _ _ a h
    simp [List.foldlM, Pure.pure, Except.pure] at h
  | cons dir rest ih =>
    intro c hrels hInv hpar a h
    rw [List.foldlM_cons] at h
    have hv := seqVisit_props w hw fuel c dir hInv (hrels dir (List.mem_cons_self _ _))
      (hpar dir (List.mem_cons_self _ _))
    cases hsv : seqVisit w fuel c dir with
    | error a2 =>
      rw [hsv] at h
      simp [Bind.bind, Except.bind] at h
      exact hv.1 a (by rw [hsv, h])
    | ok c1 =>
      rw [hsv] at h
      simp [Bind.bind, Except.bind] at h
      obtain ⟨hInv1, hmono1⟩ := hv.2 c1 hsv
      have hpar1 : ∀ d ∈ rest, d = "" ∨ cacheFind c1 (parentRelOf d) ≠ none := by
        intro d hd
        cases hpar d (List.mem_cons_of_mem _ hd) with
        | inl h' => exact Or.inl h'
        | inr h' =>
          right
          cases hf : cacheFind c (parentRelOf d) with
          | none => exact absurd hf h'
          | some v =>
            rw [hmono1 _ v hf]
            simp
      exact ih c1 (fun r hr => hrels r (List.mem_cons_of_mem _ hr)) hInv1 hpar1 a h

/-- C9: populateCache first loads the repo root key, then for each
requested root the prefix loop loads exactly the proper ancestor prefixes
of that root — the scanned keys `ancestors dir` coincide with the
claim-side list `ancestorsSpec dir`, and that list followed by the root
itself forms a parent-linked chain, which is the
ancestor-before-descendant order — all before the visit phase of any root;
consequently whenever loadDirInfo runs for a non-root key its parent slot
is already resolved, and the run never aborts with the parentNotLoaded
panic of the getLoaded parent lookup. -/
theorem C9_populate_parent_before_child (w : walker) (fuel : Nat) (rels : List String)
    (hw : walkerNamesOk w) (hrels : ∀ r ∈ rels, r = "" ∨ cleanRel r = true) :
    (∀ dir ∈ rels, cleanRel dir = true →
      ancestors dir = ancestorsSpec dir ∧ parentChain "" (ancestorsSpec dir ++ [dir])) ∧
    (∀ a, populateCacheModel w fuel rels ≠ .error (LoadAbort.parentNotLoaded a)) := by
  constructor
  · intro dir _ hdir
    exact ⟨ancestors_eq_spec hdir, parentChain_ancestors hdir⟩
  · intro a h
    cases hroot : cacheGetDrop w [] "" with
    | error a2 =>
      have heq : populateCacheModel w fuel rels = .error a2 := by
        simp [populateCacheModel, hroot]
      rw [heq] at h
      simp at h
      exact (cacheGetDrop_props hw cacheInvNil (Or.inl rfl) (Or.inl rfl)).1 a
        (by rw [hroot, h])
    | ok c0 =>
      obtain ⟨hInv0, hfind0, _⟩ :=
        (cacheGetDrop_props hw cacheInvNil (Or.inl rfl) (Or.inl rfl)).2 c0 hroot
      cases hpre : rels.foldlM
          (fun c dir => (ancestors dir).foldlM (fun c p => cacheGetDrop w c p) c) c0 with
      | error a2 =>
        have heq : populateCacheModel w fuel rels = .error a2 := by
          simp [populateCacheModel, hroot, hpre]
        rw [heq] at h
        simp at h
        exact (ancestorPhaseFold w hw rels c0 hrels hInv0 hfind0).1 a (by rw [hpre, h])
      | ok c1 =>
        have heq : populateCacheModel w fuel rels
            = rels.foldlM (fun c dir => seqVisit w fuel c dir) c1 := by
          simp [populateCacheModel, hroot, hpre]
        rw [heq] at h
        obtain ⟨hInv1, _, _, hpar1⟩ :=
          (ancestorPhaseFold w hw rels c0 hrels hInv0 hfind0).2 c1 hpre
        exact visitPhaseFold w hw fuel rels c1 (fun r hr => hrels r hr) hInv1 hpar1 a h

theorem demoWalkerNamesOk : walkerNamesOk demoWalker := by
  intro rel e he
  by_cases h1 : rel = "bad"
  · subst h1
    simp [entriesOf, demoWalker] at he
  · by_cases h2 : rel = ""
    · subst h2
      simp [entriesOf, demoWalker] at he
      rcases he with h | h | h | h | h <;> subst h <;> decide
    · by_cases h3 : rel = "a"
      · subst h3
        simp [entriesOf, demoWalker] at he
        subst he
        decide
      · by_cases h4 : rel = "ex"
        · subst h4
          simp [entriesOf, demoWalker] at he
          subst he
          decide
        · simp [entriesOf, demoWalker, h1, h2, h3, h4] at he

/-- Witness for C9: the demo walker with requested root "a/b", fuel 3;
both hypotheses hold concretely and the conclusion is the instance of the
claim theorem. -/
theorem C9_populate_parent_before_child_witness :
    walkerNamesOk demoWalker ∧
    (∀ r ∈ ["a/b"], r = "" ∨ cleanRel r = true) ∧
    ((∀ dir ∈ ["a/b"], cleanRel dir = true →
        ancestors dir = ancestorsSpec dir ∧ parentChain "" (ancestorsSpec dir ++ [dir])) ∧
      (∀ a, populateCacheModel demoWalker 3 ["a/b"]
        ≠ .error (LoadAbort.parentNotLoaded a))) :=
  ⟨demoWalkerNamesOk,
   fun r hr => by
     rw [List.mem_singleton] at hr
     subst hr
     exact Or.inr (by decide),
   C9_populate_parent_before_child demoWalker 3 ["a/b"] demoWalkerNamesOk
     (fun r hr => by
       rw [List.mem_singleton] at hr
       subst hr
       exact Or.inr (by decide))⟩

end walk
